import Mathlib

/-!
Verification development for the `massa` executed-operations ledger
(`massa-executed-ops/src/executed_ops.rs`) and the peer-handler handshake
(`massa-protocol-worker/src/handlers/peer_handler/mod.rs`).

The Rust code is shallowly embedded: `BTreeMap<Slot, PreHashSet<OperationId>>`
becomes a key-sorted association list `List (Slot × Finset Nat)`,
`PreHashSet<OperationId>` becomes `Finset Nat`, the 32-byte accumulator hash
becomes a `Nat` under bitwise XOR (byte-wise XOR of 32-byte strings is exactly
bitwise XOR of the corresponding 256-bit numbers, with the all-zero string
being 0), and an `OperationId` is identified with the 32-byte hash it wraps
(`id.get_hash()` returns the wrapped hash, and equality of ids is equality of
those bytes).
-/

/-- A slot: `(period: u64, thread: u8)`, from `massa_models::slot`. -/
structure Slot where
  period : Nat
  thread : Nat
deriving DecidableEq, Repr

/-- The lexicographic strict order on slots (period first), as in the
derived `Ord` instance used by `BTreeMap<Slot, _>`. -/
def Slot.lt (a b : Slot) : Bool :=
  decide (a.period < b.period) || (decide (a.period = b.period) && decide (a.thread < b.thread))

theorem Slot.lt_iff (a b : Slot) :
    Slot.lt a b = true ↔ (a.period < b.period ∨ (a.period = b.period ∧ a.thread < b.thread)) := by
  simp [Slot.lt]

theorem Slot.lt_irrefl (a : Slot) : Slot.lt a a = false := by
  simp [Slot.lt]

theorem Slot.lt_trans {a b c : Slot} (h1 : Slot.lt a b = true) (h2 : Slot.lt b c = true) :
    Slot.lt a c = true := by
  rw [Slot.lt_iff] at h1 h2 ⊢
  omega

theorem Slot.lt_asymm {a b : Slot} (h : Slot.lt a b = true) : Slot.lt b a = false := by
  rw [Slot.lt_iff] at h
  rw [← Bool.not_eq_true, Slot.lt_iff]
  omega

theorem Slot.eq_of_not_lt {a b : Slot} (h1 : ¬ Slot.lt a b = true) (h2 : ¬ Slot.lt b a = true) :
    a = b := by
  rw [Slot.lt_iff] at h1 h2
  cases a with
  | mk pa ta =>
    cases b with
    | mk pb tb =>
      simp only [Slot.mk.injEq]
      simp only [not_or, not_and] at h1 h2
      omega

/-- `massa_models::streaming_step::StreamingStep<Slot>`, the resumable
bootstrap cursor. -/
inductive StreamingStep where
  | started
  | ongoing (s : Slot)
  | finished
deriving DecidableEq, Repr

/-- Configuration of the executed-ops ledger (`ExecutedOpsConfig`). -/
structure ExecutedOpsConfig where
  thread_count : Nat
  bootstrap_part_size : Nat
deriving DecidableEq, Repr

/-- An operation id, identified with the 32-byte hash it wraps. -/
abbrev OpId := Nat

/-- `OperationId::get_hash()`: the id of an operation IS its wrapped hash. -/
def OpId.get_hash (id : OpId) : Nat := id

/-- The binary XOR on accumulator values. -/
def xorOp (a b : Nat) : Nat := a ^^^ b

instance : Std.Commutative xorOp := ⟨fun a b => Nat.xor_comm a b⟩

instance : Std.Associative xorOp := ⟨fun a b c => Nat.xor_assoc a b c⟩

/-- XOR of `id.get_hash()` over a finite set of operation ids
(the XOR over the empty set being the all-zero value, i.e. `0`). -/
def xorFin (s : Finset Nat) : Nat := Finset.fold xorOp 0 OpId.get_hash s

/-- The executed-operations ledger (`ExecutedOps` in `executed_ops.rs`).
`sorted_ops` models the `BTreeMap` as a key-sorted association list. -/
structure ExecutedOps where
  config : ExecutedOpsConfig
  sorted_ops : List (Slot × Finset Nat)
  ops : Finset Nat
  hash : Nat

/-- `ExecutedOps::new(config)`: empty maps, all-zero accumulator. -/
def ExecutedOps.new (config : ExecutedOpsConfig) : ExecutedOps :=
  { config := config, sorted_ops := [], ops := ∅, hash := 0 }

/-- `ExecutedOps::contains`. -/
def ExecutedOps.containsOp (e : ExecutedOps) (op : OpId) : Bool := decide (op ∈ e.ops)

/-- `ExecutedOps::extend_and_compute_hash`: insert each id into `ops`,
XOR-ing its hash into the accumulator only when `insert` reports it new. -/
def ExecutedOps.extend_and_compute_hash (e : ExecutedOps) (values : List OpId) : ExecutedOps :=
  values.foldl
    (fun e op =>
      if op ∈ e.ops then e
      else { e with ops := insert op e.ops, hash := xorOp e.hash (OpId.get_hash op) })
    e

/-- Insertion of one id at `slot` into the sorted map, mirroring
`sorted_ops.entry(slot).and_modify(insert).or_insert({op})`. -/
def insertOp (slot : Slot) (op : OpId) : List (Slot × Finset Nat) → List (Slot × Finset Nat)
  | [] => [(slot, {op})]
  | (s, v) :: rest =>
    if Slot.lt s slot then (s, v) :: insertOp slot op rest
    else if s = slot then (s, insert op v) :: rest
    else (slot, {op}) :: (s, v) :: rest

/-- Enumeration of a finite set of ids as a (sorted) list; stands for the
arbitrary iteration order of a `PreHashSet`. -/
def finList (s : Finset Nat) : List Nat :=
  Quotient.liftOn s.val (fun l => List.insertionSort (· ≤ ·) l)
    (fun l1 l2 h =>
      List.eq_of_perm_of_sorted
        ((List.perm_insertionSort _ l1).trans (h.trans (List.perm_insertionSort _ l2).symm))
        (List.sorted_insertionSort _ l1) (List.sorted_insertionSort _ l2))

/-- Removal of one pruned entry's ids: `ops.remove(&op_id)` and
`hash ^= *op_id.get_hash()` for each id of the set (iterated in some
order; the result is order-independent). -/
def ExecutedOps.pruneEntry (e : ExecutedOps) (v : Finset Nat) : ExecutedOps :=
  (finList v).foldl
    (fun e op => { e with ops := e.ops.erase op, hash := xorOp e.hash (OpId.get_hash op) })
    e

/-- `ExecutedOps::prune(slot)`: `split_off(&slot)` keeps keys `≥ slot`;
every id of a removed entry is erased from `ops` and its hash is XOR-ed
into the accumulator (unconditionally). -/
def ExecutedOps.prune (e : ExecutedOps) (slot : Slot) : ExecutedOps :=
  let kept := e.sorted_ops.filter (fun p => ! Slot.lt p.1 slot)
  let removed := e.sorted_ops.filter (fun p => Slot.lt p.1 slot)
  let e2 := removed.foldl (fun e p => e.pruneEntry p.2) e
  { e2 with sorted_ops := kept }

/-- `ExecutedOps::apply_changes(changes, slot)`: feed the changed ids through
the accumulator, insert each id under its expiry slot, then prune at `slot`. -/
def ExecutedOps.apply_changes (e : ExecutedOps) (changes : List (OpId × Slot)) (slot : Slot) :
    ExecutedOps :=
  let e1 := e.extend_and_compute_hash (changes.map Prod.fst)
  let e2 := changes.foldl (fun e c => { e with sorted_ops := insertOp c.2 c.1 e.sorted_ops }) e1
  e2.prune slot

/-- One mutating call on the ledger: `apply_changes` or `prune`. -/
inductive OpCall where
  | applyCall (changes : List (OpId × Slot)) (slot : Slot)
  | pruneCall (slot : Slot)

/-- A finite sequence of `apply_changes` / `prune` calls starting from
`ExecutedOps::new(config)`. -/
def runCalls (cfg : ExecutedOpsConfig) (calls : List OpCall) : ExecutedOps :=
  calls.foldl
    (fun e c =>
      match c with
      | .applyCall changes slot => e.apply_changes changes slot
      | .pruneCall slot => e.prune slot)
    (ExecutedOps.new cfg)

theorem xorOp_zero (a : Nat) : xorOp a 0 = a := Nat.xor_zero a

theorem zero_xorOp (a : Nat) : xorOp 0 a = a := Nat.zero_xor a

theorem xorOp_self (a : Nat) : xorOp a a = 0 := Nat.xor_self a

theorem xorOp_assoc (a b c : Nat) : xorOp (xorOp a b) c = xorOp a (xorOp b c) :=
  Nat.xor_assoc a b c

theorem xorOp_comm (a b : Nat) : xorOp a b = xorOp b a := Nat.xor_comm a b

theorem xorFin_empty : xorFin ∅ = 0 := rfl

theorem xorFin_insert {a : Nat} {s : Finset Nat} (h : a ∉ s) :
    xorFin (insert a s) = xorOp a (xorFin s) :=
  Finset.fold_insert h

theorem xorFin_union {a : Finset Nat} :
    ∀ {b : Finset Nat}, Disjoint a b → xorFin (a ∪ b) = xorOp (xorFin a) (xorFin b) := by
  intro b
  induction b using Finset.induction with
  | empty => intro _; rw [Finset.union_empty, xorFin_empty, xorOp_zero]
  | @insert x s hx ih =>
    intro hd
    rw [Finset.disjoint_insert_right] at hd
    rw [Finset.union_insert, xorFin_insert (by simp [Finset.mem_union, hx, hd.1]),
      xorFin_insert hx, ih hd.2]
    ac_rfl

theorem xorFin_union_sdiff (a b : Finset Nat) :
    xorOp (xorFin a) (xorFin (b \ a)) = xorFin (a ∪ b) := by
  rw [← xorFin_union Finset.disjoint_sdiff]
  congr 1
  rw [Finset.union_sdiff_self_eq_union]

theorem xorOp_cancel (r k : Nat) : xorOp (xorOp r k) r = k := by
  rw [xorOp_comm r k, xorOp_assoc, xorOp_self, xorOp_zero]

theorem extend_and_compute_hash_cons (e : ExecutedOps) (v : OpId) (vs : List OpId) :
    e.extend_and_compute_hash (v :: vs) =
      ExecutedOps.extend_and_compute_hash
        (if v ∈ e.ops then e
         else { e with ops := insert v e.ops, hash := xorOp e.hash (OpId.get_hash v) }) vs := by
  by_cases hv : v ∈ e.ops <;>
    simp only [ExecutedOps.extend_and_compute_hash, List.foldl_cons, hv, if_pos, if_neg,
      not_false_iff]

theorem extend_and_compute_hash_spec (vs : List OpId) :
    ∀ e : ExecutedOps,
      (e.extend_and_compute_hash vs).ops = e.ops ∪ vs.toFinset ∧
      (e.extend_and_compute_hash vs).hash = xorOp e.hash (xorFin (vs.toFinset \ e.ops)) ∧
      (e.extend_and_compute_hash vs).sorted_ops = e.sorted_ops ∧
      (e.extend_and_compute_hash vs).config = e.config := by
  induction vs with
  | nil =>
    intro e
    refine ⟨by simp [ExecutedOps.extend_and_compute_hash], ?_, rfl, rfl⟩
    simp [ExecutedOps.extend_and_compute_hash, xorFin_empty, xorOp_zero]
  | cons v vs ih =>
    intro e
    rw [extend_and_compute_hash_cons]
    by_cases hv : v ∈ e.ops
    · rw [if_pos hv]
      obtain ⟨h1, h2, h3, h4⟩ := ih e
      refine ⟨?_, ?_, h3, h4⟩
      · rw [h1]
        ext x
        simp only [Finset.mem_union, List.toFinset_cons, Finset.mem_insert, List.mem_toFinset]
        constructor
        · tauto
        · rintro (h | rfl | h) <;> tauto
      · rw [h2]
        congr 2
        ext x
        simp only [Finset.mem_sdiff, List.toFinset_cons, Finset.mem_insert, List.mem_toFinset]
        constructor
        · tauto
        · rintro ⟨rfl | h, hn⟩
          · exact absurd hv hn
          · tauto
    · rw [if_neg hv]
      obtain ⟨h1, h2, h3, h4⟩ :=
        ih { e with ops := insert v e.ops, hash := xorOp e.hash (OpId.get_hash v) }
      refine ⟨?_, ?_, h3, h4⟩
      · rw [h1]
        ext x
        simp only [Finset.mem_union, Finset.mem_insert, List.toFinset_cons, List.mem_toFinset]
        tauto
      · rw [h2]
        have hset : (v :: vs).toFinset \ e.ops = insert v (vs.toFinset \ insert v e.ops) := by
          ext x
          simp only [Finset.mem_sdiff, List.toFinset_cons, Finset.mem_insert, List.mem_toFinset]
          constructor
          · rintro ⟨rfl | h, hn⟩
            · exact Or.inl rfl
            · by_cases hx : x = v
              · exact Or.inl hx
              · exact Or.inr ⟨h, by tauto⟩
          · rintro (rfl | ⟨h, hn⟩)
            · exact ⟨Or.inl rfl, hv⟩
            · exact ⟨Or.inr h, fun hc => hn (Or.inr hc)⟩
        rw [hset, xorFin_insert (by simp)]
        show xorOp (xorOp e.hash (OpId.get_hash v)) _ =
          xorOp e.hash (xorOp (OpId.get_hash v) _)
        rw [xorOp_assoc]

/-- XOR of a list of hashes. -/
def xorList (l : List Nat) : Nat := l.foldr xorOp 0

theorem xorList_eq_xorFin {l : List Nat} (h : l.Nodup) : xorList l = xorFin l.toFinset := by
  induction l with
  | nil => rfl
  | cons a l ih =>
    have ha : a ∉ l := (List.nodup_cons.mp h).1
    rw [show xorList (a :: l) = xorOp a (xorList l) from rfl, List.toFinset_cons,
      xorFin_insert (by simpa using ha), ih (List.nodup_cons.mp h).2]

theorem eraseFold_spec (l : List Nat) :
    ∀ e : ExecutedOps,
      (List.foldl
        (fun e op => { e with ops := e.ops.erase op, hash := xorOp e.hash (OpId.get_hash op) })
        e l).ops = e.ops \ l.toFinset ∧
      (List.foldl
        (fun e op => { e with ops := e.ops.erase op, hash := xorOp e.hash (OpId.get_hash op) })
        e l).hash = xorOp e.hash (xorList l) ∧
      (List.foldl
        (fun e op => { e with ops := e.ops.erase op, hash := xorOp e.hash (OpId.get_hash op) })
        e l).sorted_ops = e.sorted_ops ∧
      (List.foldl
        (fun e op => { e with ops := e.ops.erase op, hash := xorOp e.hash (OpId.get_hash op) })
        e l).config = e.config := by
  induction l with
  | nil =>
    intro e
    exact ⟨by simp, by simp [xorList, xorOp_zero], rfl, rfl⟩
  | cons a l ih =>
    intro e
    simp only [List.foldl_cons]
    obtain ⟨h1, h2, h3, h4⟩ :=
      ih { e with ops := e.ops.erase a, hash := xorOp e.hash (OpId.get_hash a) }
    refine ⟨?_, ?_, h3, h4⟩
    · rw [h1]
      ext x
      simp only [Finset.mem_sdiff, Finset.mem_erase, List.toFinset_cons, Finset.mem_insert,
        List.mem_toFinset]
      tauto
    · rw [h2]
      show xorOp (xorOp e.hash (OpId.get_hash a)) (xorList l) =
        xorOp e.hash (xorOp (OpId.get_hash a) (xorList l))
      rw [xorOp_assoc]

theorem finList_coe (s : Finset Nat) : (↑(finList s) : Multiset Nat) = s.val := by
  rcases s with ⟨m, hm⟩
  induction m using Quotient.inductionOn with
  | h l => exact Quotient.sound (List.perm_insertionSort _ l)

theorem finList_nodup (s : Finset Nat) : (finList s).Nodup := by
  rw [← Multiset.coe_nodup, finList_coe]
  exact s.nodup

theorem finList_toFinset (s : Finset Nat) : (finList s).toFinset = s := by
  ext x
  rw [List.mem_toFinset, ← Multiset.mem_coe, finList_coe]
  exact Iff.rfl

theorem pruneEntry_spec (e : ExecutedOps) (v : Finset Nat) :
    (e.pruneEntry v).ops = e.ops \ v ∧
    (e.pruneEntry v).hash = xorOp e.hash (xorFin v) ∧
    (e.pruneEntry v).sorted_ops = e.sorted_ops ∧
    (e.pruneEntry v).config = e.config := by
  obtain ⟨h1, h2, h3, h4⟩ := eraseFold_spec (finList v) e
  refine ⟨?_, ?_, h3, h4⟩
  · rw [show (e.pruneEntry v).ops = _ from h1, finList_toFinset]
  · rw [show (e.pruneEntry v).hash = _ from h2,
      xorList_eq_xorFin (finList_nodup v), finList_toFinset]

/-- The union of the id sets stored as values of the sorted map
(`⋃ sorted_ops.values()`). -/
def unionValues : List (Slot × Finset Nat) → Finset Nat
  | [] => ∅
  | p :: rest => p.2 ∪ unionValues rest

theorem mem_unionValues {x : Nat} : ∀ {l : List (Slot × Finset Nat)},
    x ∈ unionValues l ↔ ∃ p ∈ l, x ∈ p.2 := by
  intro l
  induction l with
  | nil => simp [unionValues]
  | cons p rest ih => simp [unionValues, ih]

/-- Keys of the association list are strictly increasing: the representation
invariant of `BTreeMap<Slot, _>`. -/
def SortedKeys (l : List (Slot × Finset Nat)) : Prop :=
  l.Pairwise (fun a b => Slot.lt a.1 b.1 = true)

/-- Every id stored in the map sits under the slot assigned to it by `f`. -/
def Assigned (f : OpId → Slot) (l : List (Slot × Finset Nat)) : Prop :=
  ∀ p ∈ l, ∀ id ∈ p.2, f id = p.1

/-- The representation and accumulator invariant of `ExecutedOps`, relative
to a fixed expiry-slot assignment `f`. -/
def ExecutedOps.Inv (f : OpId → Slot) (e : ExecutedOps) : Prop :=
  SortedKeys e.sorted_ops ∧ Assigned f e.sorted_ops ∧
  e.ops = unionValues e.sorted_ops ∧ e.hash = xorFin e.ops

/-- XOR of the per-entry XORs of a list of map entries. -/
def xorValues : List (Slot × Finset Nat) → Nat
  | [] => 0
  | p :: rest => xorOp (xorFin p.2) (xorValues rest)

theorem pruneEntries_spec (rem : List (Slot × Finset Nat)) :
    ∀ e : ExecutedOps,
      (rem.foldl (fun e p => e.pruneEntry p.2) e).ops = e.ops \ unionValues rem ∧
      (rem.foldl (fun e p => e.pruneEntry p.2) e).hash = xorOp e.hash (xorValues rem) ∧
      (rem.foldl (fun e p => e.pruneEntry p.2) e).sorted_ops = e.sorted_ops ∧
      (rem.foldl (fun e p => e.pruneEntry p.2) e).config = e.config := by
  induction rem with
  | nil =>
    intro e
    exact ⟨by simp [unionValues], by simp [xorValues, xorOp_zero], rfl, rfl⟩
  | cons p rest ih =>
    intro e
    simp only [List.foldl_cons]
    obtain ⟨g1, g2, g3, g4⟩ := pruneEntry_spec e p.2
    obtain ⟨h1, h2, h3, h4⟩ := ih (e.pruneEntry p.2)
    refine ⟨?_, ?_, h3.trans g3, h4.trans g4⟩
    · rw [h1, g1]
      ext x
      simp only [Finset.mem_sdiff, unionValues, Finset.mem_union]
      tauto
    · rw [h2, g2, xorValues, xorOp_assoc]

theorem xorValues_eq {f : OpId → Slot} :
    ∀ {l : List (Slot × Finset Nat)}, SortedKeys l → Assigned f l →
      xorValues l = xorFin (unionValues l) := by
  intro l
  induction l with
  | nil => intro _ _; rfl
  | cons p rest ih =>
    intro hs ha
    have hrs : SortedKeys rest := (List.pairwise_cons.mp hs).2
    have hra : Assigned f rest := fun q hq => ha q (List.mem_cons_of_mem _ hq)
    have hdis : Disjoint p.2 (unionValues rest) := by
      rw [Finset.disjoint_left]
      intro x hxp hxr
      obtain ⟨q, hq, hxq⟩ := mem_unionValues.mp hxr
      have h1 : f x = p.1 := ha p (List.mem_cons_self p rest) x hxp
      have h2 : f x = q.1 := ha q (List.mem_cons_of_mem _ hq) x hxq
      have hlt : Slot.lt p.1 q.1 = true := (List.pairwise_cons.mp hs).1 q hq
      rw [← h1, h2] at hlt
      rw [Slot.lt_irrefl] at hlt
      exact Bool.false_ne_true hlt
    rw [show xorValues (p :: rest) = xorOp (xorFin p.2) (xorValues rest) from rfl,
      show unionValues (p :: rest) = p.2 ∪ unionValues rest from rfl,
      xorFin_union hdis, ih hrs hra]

theorem prune_inv {f : OpId → Slot} {e : ExecutedOps} {slot : Slot}
    (h : e.Inv f) : (e.prune slot).Inv f := by
  obtain ⟨hs, ha, ho, hh⟩ := h
  have hppred := fun p : Slot × Finset Nat => Slot.lt p.1 slot
  set kept := e.sorted_ops.filter (fun p => ! Slot.lt p.1 slot) with hkept
  set removed := e.sorted_ops.filter (fun p => Slot.lt p.1 slot) with hremoved
  have hsk : SortedKeys kept := List.Pairwise.filter _ hs
  have hsr : SortedKeys removed := List.Pairwise.filter _ hs
  have hak : Assigned f kept := fun p hp => ha p (List.mem_of_mem_filter hp)
  have har : Assigned f removed := fun p hp => ha p (List.mem_of_mem_filter hp)
  have hdisj : Disjoint (unionValues removed) (unionValues kept) := by
    rw [Finset.disjoint_left]
    intro x hxr hxk
    obtain ⟨p, hp, hxp⟩ := mem_unionValues.mp hxr
    obtain ⟨q, hq, hxq⟩ := mem_unionValues.mp hxk
    have h1 : f x = p.1 := har p hp x hxp
    have h2 : f x = q.1 := hak q hq x hxq
    have hp2 : Slot.lt p.1 slot = true := by
      have := (List.mem_filter.mp hp).2
      simpa using this
    have hq2 : ¬ Slot.lt q.1 slot = true := by
      have := (List.mem_filter.mp hq).2
      simpa using this
    rw [← h1, h2] at hp2
    exact hq2 hp2
  have hsplit : e.ops = unionValues removed ∪ unionValues kept := by
    rw [ho]
    ext x
    simp only [Finset.mem_union, mem_unionValues, hremoved, hkept, List.mem_filter,
      Bool.not_eq_eq_eq_not, Bool.not_true]
    constructor
    · rintro ⟨p, hp, hxp⟩
      by_cases hc : Slot.lt p.1 slot = true
      · exact Or.inl ⟨p, ⟨hp, hc⟩, hxp⟩
      · exact Or.inr ⟨p, ⟨hp, by simpa using hc⟩, hxp⟩
    · rintro (⟨p, ⟨hp, _⟩, hxp⟩ | ⟨p, ⟨hp, _⟩, hxp⟩) <;> exact ⟨p, hp, hxp⟩
  obtain ⟨p1, p2, p3, p4⟩ := pruneEntries_spec removed e
  have hops : (e.prune slot).ops = unionValues kept := by
    rw [show (e.prune slot).ops = (removed.foldl (fun e p => e.pruneEntry p.2) e).ops from rfl,
      p1, hsplit]
    ext x
    simp only [Finset.mem_sdiff, Finset.mem_union]
    have := Finset.disjoint_left.mp hdisj
    tauto
  have hsorted : (e.prune slot).sorted_ops = kept := rfl
  refine ⟨by rw [hsorted]; exact hsk, by rw [hsorted]; exact hak, by rw [hops, hsorted], ?_⟩
  have hhash : (e.prune slot).hash = xorOp e.hash (xorValues removed) := p2
  rw [hhash, hops, hh, hsplit, xorFin_union hdisj, xorValues_eq hsr har, xorOp_cancel]

theorem insertOp_mem (slot : Slot) (op : OpId) :
    ∀ (l : List (Slot × Finset Nat)) (x : Nat),
      (x ∈ unionValues (insertOp slot op l) ↔ x = op ∨ x ∈ unionValues l) := by
  intro l
  induction l with
  | nil => intro x; simp [insertOp, unionValues]
  | cons p rest ih =>
    intro x
    obtain ⟨s, v⟩ := p
    by_cases h1 : Slot.lt s slot = true
    · rw [show insertOp slot op ((s, v) :: rest) = (s, v) :: insertOp slot op rest by
        simp [insertOp, h1]]
      simp only [unionValues, Finset.mem_union, ih]
      tauto
    · by_cases h2 : s = slot
      · rw [show insertOp slot op ((s, v) :: rest) = (s, insert op v) :: rest by
          simp [insertOp, h1, h2, Slot.lt_irrefl]]
        simp only [unionValues, Finset.mem_union, Finset.mem_insert]
        tauto
      · rw [show insertOp slot op ((s, v) :: rest) = (slot, {op}) :: (s, v) :: rest by
          simp [insertOp, h1, h2, Slot.lt_irrefl]]
        simp only [unionValues, Finset.mem_union, Finset.mem_singleton]

theorem insertOp_entry (slot : Slot) (op : OpId) :
    ∀ (l : List (Slot × Finset Nat)) (p : Slot × Finset Nat), p ∈ insertOp slot op l →
      p.1 = slot ∨ p ∈ l := by
  intro l
  induction l with
  | nil => intro p hp; simp only [insertOp, List.mem_singleton] at hp; exact Or.inl (by rw [hp])
  | cons q rest ih =>
    intro p hp
    obtain ⟨s, v⟩ := q
    by_cases h1 : Slot.lt s slot = true
    · rw [show insertOp slot op ((s, v) :: rest) = (s, v) :: insertOp slot op rest by
        simp [insertOp, h1]] at hp
      rcases List.mem_cons.mp hp with rfl | hp
      · exact Or.inr (List.mem_cons_self _ _)
      · rcases ih p hp with h | h
        · exact Or.inl h
        · exact Or.inr (List.mem_cons_of_mem _ h)
    · by_cases h2 : s = slot
      · rw [show insertOp slot op ((s, v) :: rest) = (s, insert op v) :: rest by
          simp [insertOp, h1, h2, Slot.lt_irrefl]] at hp
        rcases List.mem_cons.mp hp with rfl | hp
        · exact Or.inl h2
        · exact Or.inr (List.mem_cons_of_mem _ hp)
      · rw [show insertOp slot op ((s, v) :: rest) = (slot, {op}) :: (s, v) :: rest by
          simp [insertOp, h1, h2, Slot.lt_irrefl]] at hp
        rcases List.mem_cons.mp hp with rfl | hp
        · exact Or.inl rfl
        · exact Or.inr hp

theorem insertOp_sorted (slot : Slot) (op : OpId) :
    ∀ {l : List (Slot × Finset Nat)}, SortedKeys l → SortedKeys (insertOp slot op l) := by
  intro l
  induction l with
  | nil => intro _; simp [insertOp, SortedKeys]
  | cons q rest ih =>
    intro hs
    obtain ⟨s, v⟩ := q
    obtain ⟨hhead, htail⟩ := List.pairwise_cons.mp hs
    by_cases h1 : Slot.lt s slot = true
    · rw [show insertOp slot op ((s, v) :: rest) = (s, v) :: insertOp slot op rest by
        simp [insertOp, h1]]
      refine List.pairwise_cons.mpr ⟨?_, ih htail⟩
      intro p hp
      rcases insertOp_entry slot op rest p hp with h | h
      · rw [h]; exact h1
      · exact hhead p h
    · by_cases h2 : s = slot
      · rw [show insertOp slot op ((s, v) :: rest) = (s, insert op v) :: rest by
          simp [insertOp, h1, h2, Slot.lt_irrefl]]
        exact List.pairwise_cons.mpr ⟨hhead, htail⟩
      · rw [show insertOp slot op ((s, v) :: rest) = (slot, {op}) :: (s, v) :: rest by
          simp [insertOp, h1, h2, Slot.lt_irrefl]]
        have hlt : Slot.lt slot s = true := by
          rcases Bool.eq_false_or_eq_true (Slot.lt slot s) with h | h
          · exact h
          · exact absurd (Slot.eq_of_not_lt h1 (by simp [h]) : s = slot) h2
        refine List.pairwise_cons.mpr ⟨?_, hs⟩
        intro p hp
        rcases List.mem_cons.mp hp with rfl | hp
        · exact hlt
        · exact Slot.lt_trans hlt (hhead p hp)

theorem insertOp_assigned {f : OpId → Slot} (slot : Slot) (op : OpId) (hop : f op = slot) :
    ∀ {l : List (Slot × Finset Nat)}, Assigned f l → Assigned f (insertOp slot op l) := by
  intro l
  induction l with
  | nil =>
    intro _ p hp id hid
    simp only [insertOp, List.mem_singleton] at hp
    subst hp
    simp only [Finset.mem_singleton] at hid
    rw [hid, hop]
  | cons q rest ih =>
    intro ha p hp id hid
    obtain ⟨s, v⟩ := q
    have hahead : ∀ id ∈ v, f id = s := fun id hid => ha (s, v) (List.mem_cons_self _ _) id hid
    have hatail : Assigned f rest := fun q hq => ha q (List.mem_cons_of_mem _ hq)
    by_cases h1 : Slot.lt s slot = true
    · rw [show insertOp slot op ((s, v) :: rest) = (s, v) :: insertOp slot op rest by
        simp [insertOp, h1]] at hp
      rcases List.mem_cons.mp hp with rfl | hp
      · exact hahead id hid
      · exact ih hatail p hp id hid
    · by_cases h2 : s = slot
      · rw [show insertOp slot op ((s, v) :: rest) = (s, insert op v) :: rest by
          simp [insertOp, h1, h2, Slot.lt_irrefl]] at hp
        rcases List.mem_cons.mp hp with rfl | hp
        · simp only [Finset.mem_insert] at hid
          rcases hid with rfl | hid
          · rw [hop, h2]
          · exact hahead id hid
        · exact hatail p hp id hid
      · rw [show insertOp slot op ((s, v) :: rest) = (slot, {op}) :: (s, v) :: rest by
          simp [insertOp, h1, h2, Slot.lt_irrefl]] at hp
        rcases List.mem_cons.mp hp with rfl | hp
        · simp only [Finset.mem_singleton] at hid
          rw [hid, hop]
        · exact ha p hp id hid

theorem insertFold_spec {f : OpId → Slot} :
    ∀ (changes : List (OpId × Slot)), (∀ c ∈ changes, c.2 = f c.1) →
    ∀ e : ExecutedOps, SortedKeys e.sorted_ops → Assigned f e.sorted_ops →
      SortedKeys (changes.foldl
        (fun e c => { e with sorted_ops := insertOp c.2 c.1 e.sorted_ops }) e).sorted_ops ∧
      Assigned f (changes.foldl
        (fun e c => { e with sorted_ops := insertOp c.2 c.1 e.sorted_ops }) e).sorted_ops ∧
      (∀ x, x ∈ unionValues (changes.foldl
          (fun e c => { e with sorted_ops := insertOp c.2 c.1 e.sorted_ops }) e).sorted_ops ↔
        (∃ c ∈ changes, c.1 = x) ∨ x ∈ unionValues e.sorted_ops) ∧
      (changes.foldl
        (fun e c => { e with sorted_ops := insertOp c.2 c.1 e.sorted_ops }) e).ops = e.ops ∧
      (changes.foldl
        (fun e c => { e with sorted_ops := insertOp c.2 c.1 e.sorted_ops }) e).hash = e.hash ∧
      (changes.foldl
        (fun e c => { e with sorted_ops := insertOp c.2 c.1 e.sorted_ops }) e).config = e.config := by
  intro changes
  induction changes with
  | nil =>
    intro _ e hs ha
    exact ⟨hs, ha, fun x => by simp, rfl, rfl, rfl⟩
  | cons c cs ih =>
    intro hf e hs ha
    simp only [List.foldl_cons]
    have hc : f c.1 = c.2 := (hf c (List.mem_cons_self _ _)).symm
    obtain ⟨k1, k2, k3, k4, k5, k6⟩ :=
      ih (fun d hd => hf d (List.mem_cons_of_mem _ hd))
        { e with sorted_ops := insertOp c.2 c.1 e.sorted_ops }
        (insertOp_sorted c.2 c.1 hs) (insertOp_assigned c.2 c.1 hc ha)
    refine ⟨k1, k2, ?_, k4, k5, k6⟩
    intro x
    rw [k3 x]
    simp only [insertOp_mem c.2 c.1 e.sorted_ops x, List.mem_cons]
    constructor
    · rintro (⟨d, hd, rfl⟩ | rfl | hx)
      · exact Or.inl ⟨d, Or.inr hd, rfl⟩
      · exact Or.inl ⟨c, Or.inl rfl, rfl⟩
      · exact Or.inr hx
    · rintro (⟨d, rfl | hd, rfl⟩ | hx)
      · exact Or.inr (Or.inl rfl)
      · exact Or.inl ⟨d, hd, rfl⟩
      · exact Or.inr (Or.inr hx)

theorem apply_changes_inv {f : OpId → Slot} {e : ExecutedOps} {changes : List (OpId × Slot)}
    {slot : Slot} (h : e.Inv f) (hf : ∀ c ∈ changes, c.2 = f c.1) :
    (e.apply_changes changes slot).Inv f := by
  obtain ⟨hs, ha, ho, hh⟩ := h
  obtain ⟨x1, x2, x3, x4⟩ := extend_and_compute_hash_spec (changes.map Prod.fst) e
  set e1 := e.extend_and_compute_hash (changes.map Prod.fst) with he1
  obtain ⟨k1, k2, k3, k4, k5, k6⟩ :=
    insertFold_spec changes hf e1 (by rw [x3]; exact hs) (by rw [x3]; exact ha)
  set e2 := changes.foldl (fun e c => { e with sorted_ops := insertOp c.2 c.1 e.sorted_ops }) e1
    with he2
  have hinv2 : e2.Inv f := by
    refine ⟨k1, k2, ?_, ?_⟩
    · rw [k4, x1, ho]
      ext x
      rw [k3 x, x3]
      simp only [Finset.mem_union, List.mem_toFinset, List.mem_map]
      constructor
      · rintro (hx | ⟨d, hd, rfl⟩)
        · exact Or.inr hx
        · exact Or.inl ⟨d, hd, rfl⟩
      · rintro (⟨d, hd, rfl⟩ | hx)
        · exact Or.inr ⟨d, hd, rfl⟩
        · exact Or.inl hx
    · rw [k5, k4, x2, x1, hh, xorFin_union_sdiff]
  exact prune_inv hinv2

/-- Whether one ledger call only associates ids with their `f`-assigned
expiry slot (`prune` calls always do). -/
def callRespects (f : OpId → Slot) : OpCall → Prop
  | .applyCall changes _ => ∀ c ∈ changes, c.2 = f c.1
  | .pruneCall _ => True

theorem new_inv (cfg : ExecutedOpsConfig) (f : OpId → Slot) : (ExecutedOps.new cfg).Inv f :=
  ⟨List.Pairwise.nil, fun p hp => absurd hp (List.not_mem_nil p), rfl, rfl⟩

theorem runCalls_inv (cfg : ExecutedOpsConfig) (f : OpId → Slot) (calls : List OpCall)
    (h : ∀ c ∈ calls, callRespects f c) : (runCalls cfg calls).Inv f := by
  suffices hgen : ∀ (calls : List OpCall), (∀ c ∈ calls, callRespects f c) →
      ∀ e : ExecutedOps, e.Inv f →
      (calls.foldl
        (fun e c =>
          match c with
          | .applyCall changes slot => e.apply_changes changes slot
          | .pruneCall slot => e.prune slot) e).Inv f by
    exact hgen calls h (ExecutedOps.new cfg) (new_inv cfg f)
  intro calls
  induction calls with
  | nil => intro _ e he; exact he
  | cons c cs ih =>
    intro hr e he
    simp only [List.foldl_cons]
    refine ih (fun d hd => hr d (List.mem_cons_of_mem _ hd)) _ ?_
    cases c with
    | applyCall changes slot =>
      exact apply_changes_inv he (hr (.applyCall changes slot) (List.mem_cons_self _ _))
    | pruneCall slot => exact prune_inv he

/-- Claim C1 counterexample: apply id 1 under expiry slot (2,0), then again
under expiry slot (5,0), then prune at (3,0) and at (6,0). The second prune
XORs hash(1) back in although `ops` no longer contains 1, so the accumulator
is 1 while the XOR over the (empty) `ops` is 0: the unconditional invariant
claimed for arbitrary `apply_changes`/`prune` sequences is false. -/
theorem executed_ops_hash_xor_cex :
    ¬ ((runCalls ⟨2, 10⟩
        [.applyCall [(1, ⟨2, 0⟩)] ⟨0, 0⟩, .applyCall [(1, ⟨5, 0⟩)] ⟨0, 0⟩,
         .pruneCall ⟨3, 0⟩, .pruneCall ⟨6, 0⟩]).hash =
      xorFin (runCalls ⟨2, 10⟩
        [.applyCall [(1, ⟨2, 0⟩)] ⟨0, 0⟩, .applyCall [(1, ⟨5, 0⟩)] ⟨0, 0⟩,
         .pruneCall ⟨3, 0⟩, .pruneCall ⟨6, 0⟩]).ops) := by
  decide

/-- Claim C1 (amended): for every `ExecutedOps` built by `new(config)` and any
finite sequence of `apply_changes`/`prune` calls in which every operation id
is always associated with one fixed expiry slot (`f`), the accumulator `hash`
equals the byte-wise XOR of `id.get_hash()` over all ids currently in `ops`
(the XOR over the empty set being the all-zero value). -/
theorem executed_ops_hash_xor_invariant (cfg : ExecutedOpsConfig) (f : OpId → Slot)
    (calls : List OpCall) (h : ∀ c ∈ calls, callRespects f c) :
    (runCalls cfg calls).hash = xorFin (runCalls cfg calls).ops :=
  (runCalls_inv cfg f calls h).2.2.2

/-- Witness for the amended claim C1 at a concrete call sequence. -/
theorem executed_ops_hash_xor_invariant_witness :
    (∀ c ∈ [OpCall.applyCall [((1 : Nat), (⟨1, 0⟩ : Slot)), (2, ⟨2, 0⟩)] ⟨0, 0⟩,
        OpCall.pruneCall ⟨2, 0⟩], callRespects (fun id => (⟨id, 0⟩ : Slot)) c) ∧
      (runCalls ⟨2, 10⟩ [OpCall.applyCall [((1 : Nat), (⟨1, 0⟩ : Slot)), (2, ⟨2, 0⟩)] ⟨0, 0⟩,
        OpCall.pruneCall ⟨2, 0⟩]).hash =
      xorFin (runCalls ⟨2, 10⟩ [OpCall.applyCall
        [((1 : Nat), (⟨1, 0⟩ : Slot)), (2, ⟨2, 0⟩)] ⟨0, 0⟩,
        OpCall.pruneCall ⟨2, 0⟩]).ops := by
  have hresp : ∀ c ∈ [OpCall.applyCall [((1 : Nat), (⟨1, 0⟩ : Slot)), (2, ⟨2, 0⟩)] ⟨0, 0⟩,
      OpCall.pruneCall ⟨2, 0⟩], callRespects (fun id => (⟨id, 0⟩ : Slot)) c := by
    simp only [callRespects, List.mem_cons, List.mem_singleton]
    rintro c (rfl | rfl | h)
    · rintro d hd
      rcases List.mem_cons.mp hd with rfl | hd
      · rfl
      · rcases List.mem_singleton.mp hd with rfl
        rfl
    · trivial
    · exact absurd h (List.not_mem_nil c)
  exact ⟨hresp, executed_ops_hash_xor_invariant ⟨2, 10⟩ (fun id => (⟨id, 0⟩ : Slot)) _ hresp⟩

/-- Claim C2 counterexample: apply id 1 under expiry slot (2,0), then again
under expiry slot (5,0), then prune at (3,0). The prune removes id 1 from
`ops` while the copy under slot (5,0) stays in `sorted_ops`, so
`ops = ∅ ≠ {1} = ⋃ sorted_ops.values()`: the unconditional invariant claimed
for arbitrary `apply_changes`/`prune` sequences is false. -/
theorem executed_ops_flat_set_cex :
    ¬ ((runCalls ⟨2, 10⟩
        [.applyCall [(1, ⟨2, 0⟩)] ⟨0, 0⟩, .applyCall [(1, ⟨5, 0⟩)] ⟨0, 0⟩,
         .pruneCall ⟨3, 0⟩]).ops =
      unionValues (runCalls ⟨2, 10⟩
        [.applyCall [(1, ⟨2, 0⟩)] ⟨0, 0⟩, .applyCall [(1, ⟨5, 0⟩)] ⟨0, 0⟩,
         .pruneCall ⟨3, 0⟩]).sorted_ops) := by
  intro h
  have h1 : (1 : Nat) ∈ (runCalls ⟨2, 10⟩
      [.applyCall [(1, ⟨2, 0⟩)] ⟨0, 0⟩, .applyCall [(1, ⟨5, 0⟩)] ⟨0, 0⟩,
       .pruneCall ⟨3, 0⟩]).ops := by
    rw [h]
    decide
  exact absurd h1 (by decide)

/-- Claim C2 (amended): for every `ExecutedOps` built by `new(config)` and any
finite sequence of `apply_changes`/`prune` calls in which every operation id
is always associated with one fixed expiry slot (`f`), the flat set `ops`
equals the union of the id sets stored as values of `sorted_ops`, and no id
appears under two different slot keys. -/
theorem executed_ops_flat_set_invariant (cfg : ExecutedOpsConfig) (f : OpId → Slot)
    (calls : List OpCall) (h : ∀ c ∈ calls, callRespects f c) :
    (runCalls cfg calls).ops = unionValues (runCalls cfg calls).sorted_ops ∧
    ∀ p ∈ (runCalls cfg calls).sorted_ops, ∀ q ∈ (runCalls cfg calls).sorted_ops,
      ∀ id : OpId, id ∈ p.2 → id ∈ q.2 → p.1 = q.1 := by
  obtain ⟨hs, ha, ho, hh⟩ := runCalls_inv cfg f calls h
  exact ⟨ho, fun p hp q hq id hip hiq => by rw [← ha p hp id hip, ha q hq id hiq]⟩

/-- Witness for the amended claim C2 at a concrete call sequence. -/
theorem executed_ops_flat_set_invariant_witness :
    (∀ c ∈ [OpCall.applyCall [((1 : Nat), (⟨1, 0⟩ : Slot)), (2, ⟨2, 0⟩)] ⟨0, 0⟩,
        OpCall.pruneCall ⟨2, 0⟩], callRespects (fun id => (⟨id, 0⟩ : Slot)) c) ∧
      ((runCalls ⟨2, 10⟩ [OpCall.applyCall [((1 : Nat), (⟨1, 0⟩ : Slot)), (2, ⟨2, 0⟩)] ⟨0, 0⟩,
          OpCall.pruneCall ⟨2, 0⟩]).ops =
        unionValues (runCalls ⟨2, 10⟩ [OpCall.applyCall
          [((1 : Nat), (⟨1, 0⟩ : Slot)), (2, ⟨2, 0⟩)] ⟨0, 0⟩,
          OpCall.pruneCall ⟨2, 0⟩]).sorted_ops ∧
      ∀ p ∈ (runCalls ⟨2, 10⟩ [OpCall.applyCall
          [((1 : Nat), (⟨1, 0⟩ : Slot)), (2, ⟨2, 0⟩)] ⟨0, 0⟩,
          OpCall.pruneCall ⟨2, 0⟩]).sorted_ops,
        ∀ q ∈ (runCalls ⟨2, 10⟩ [OpCall.applyCall
          [((1 : Nat), (⟨1, 0⟩ : Slot)), (2, ⟨2, 0⟩)] ⟨0, 0⟩,
          OpCall.pruneCall ⟨2, 0⟩]).sorted_ops,
        ∀ id : OpId, id ∈ p.2 → id ∈ q.2 → p.1 = q.1) := by
  have hresp : ∀ c ∈ [OpCall.applyCall [((1 : Nat), (⟨1, 0⟩ : Slot)), (2, ⟨2, 0⟩)] ⟨0, 0⟩,
      OpCall.pruneCall ⟨2, 0⟩], callRespects (fun id => (⟨id, 0⟩ : Slot)) c := by
    simp only [callRespects, List.mem_cons, List.mem_singleton]
    rintro c (rfl | rfl | h)
    · rintro d hd
      rcases List.mem_cons.mp hd with rfl | hd
      · rfl
      · rcases List.mem_singleton.mp hd with rfl
        rfl
    · trivial
    · exact absurd h (List.not_mem_nil c)
  exact ⟨hresp, executed_ops_flat_set_invariant ⟨2, 10⟩ (fun id => (⟨id, 0⟩ : Slot)) _ hresp⟩

/-- Position of a slot key in the map, mirroring
`sorted_ops.binary_search_by_key(&slot, |(slot, _)| *slot)` (the keys are
sorted and unique, so the found index is the unique matching position). -/
def findSlotIdx (s : Slot) : List (Slot × Finset Nat) → Option Nat
  | [] => none
  | p :: rest => if p.1 = s then some 0 else (findSlotIdx s rest).map (· + 1)

/-- Last key of the map, mirroring `sorted_ops.back().map(|(slot, _)| slot)`. -/
def lastKey : List (Slot × Finset Nat) → Option Slot
  | [] => none
  | [p] => some p.1
  | _ :: rest => lastKey rest

/-- Copy at most `n` leading entries and derive the next cursor:
`Ongoing(last_slot_copied)` if at least one entry was copied, else
`Finished` (the copy loop of `get_executed_ops_part`). -/
def mkPart (l : List (Slot × Finset Nat)) (n : Nat) :
    List (Slot × Finset Nat) × StreamingStep :=
  let part := l.take n
  match lastKey part with
  | some s => (part, .ongoing s)
  | none => (part, .finished)

/-- `ExecutedOps::get_executed_ops_part(cursor)`: `Started` streams from the
smallest key; `Ongoing(slot)` binary-searches `slot` and streams strictly
after its position, returning `Finished` at once when the key is absent;
`Finished` returns an empty part. -/
def ExecutedOps.get_executed_ops_part (e : ExecutedOps) (cursor : StreamingStep) :
    List (Slot × Finset Nat) × StreamingStep :=
  match cursor with
  | .finished => ([], .finished)
  | .started => mkPart e.sorted_ops e.config.bootstrap_part_size
  | .ongoing slot =>
    match findSlotIdx slot e.sorted_ops with
    | some idx => mkPart (e.sorted_ops.drop (idx + 1)) e.config.bootstrap_part_size
    | none => ([], .finished)

/-- `BTreeMap::insert` semantics for one `(slot, v)` pair: the value stored
under an already-present key is REPLACED (this is what
`sorted_ops.extend(part)` does for each pair of `part`). -/
def btReplace (slot : Slot) (v : Finset Nat) :
    List (Slot × Finset Nat) → List (Slot × Finset Nat)
  | [] => [(slot, v)]
  | (s, w) :: rest =>
    if Slot.lt s slot then (s, w) :: btReplace slot v rest
    else if s = slot then (slot, v) :: rest
    else (slot, v) :: (s, w) :: rest

/-- `ExecutedOps::set_executed_ops_part(part)`: `sorted_ops.extend(part)`,
then feed every id of the part through `extend_and_compute_hash`, then
return `Ongoing(last key)` if the store is non-empty, else `Finished`. -/
def ExecutedOps.set_executed_ops_part (e : ExecutedOps) (part : List (Slot × Finset Nat)) :
    ExecutedOps × StreamingStep :=
  let newSorted := part.foldl (fun l (p : Slot × Finset Nat) => btReplace p.1 p.2 l) e.sorted_ops
  let ids := part.foldr (fun (p : Slot × Finset Nat) acc => finList p.2 ++ acc) []
  let e2 := ExecutedOps.extend_and_compute_hash { e with sorted_ops := newSorted } ids
  match lastKey e2.sorted_ops with
  | some s => (e2, .ongoing s)
  | none => (e2, .finished)

/-- The streamed bootstrap loop: repeatedly `get` a part from `src` at the
cursor, `set` it into `dst`, and continue with the returned cursor until it
is `Finished`; `none` if the fuel runs out first. -/
def streamLoop (src : ExecutedOps) : ExecutedOps → StreamingStep → Nat → Option ExecutedOps
  | _, _, 0 => none
  | dst, cursor, fuel + 1 =>
    let pr := src.get_executed_ops_part cursor
    let dst2 := (dst.set_executed_ops_part pr.1).1
    match pr.2 with
    | .finished => some dst2
    | c => streamLoop src dst2 c fuel

/-- The chunk extraction as the specification words it: walk `sorted_ops`
from the smallest key inclusive (`Started`) or from the cursor's slot
exclusive (`Ongoing(slot)`), copy at most `bootstrap_part_size` pairs in
ascending slot order, and return `Ongoing(last_slot_copied)` if at least one
pair was copied, else `Finished`. -/
def getPartSpec (e : ExecutedOps) (cursor : StreamingStep) :
    List (Slot × Finset Nat) × StreamingStep :=
  match cursor with
  | .finished => ([], .finished)
  | .started => mkPart e.sorted_ops e.config.bootstrap_part_size
  | .ongoing slot =>
    mkPart (e.sorted_ops.filter (fun p => Slot.lt slot p.1)) e.config.bootstrap_part_size

theorem findSlotIdx_none {s : Slot} :
    ∀ {l : List (Slot × Finset Nat)}, (∀ p ∈ l, p.1 ≠ s) → findSlotIdx s l = none := by
  intro l
  induction l with
  | nil => intro _; rfl
  | cons p rest ih =>
    intro h
    rw [show findSlotIdx s (p :: rest) =
        (if p.1 = s then some 0 else (findSlotIdx s rest).map (· + 1)) from rfl,
      if_neg (h p (List.mem_cons_self _ _)), ih (fun q hq => h q (List.mem_cons_of_mem _ hq))]
    rfl

theorem findSlotIdx_found {s : Slot} :
    ∀ (l1 : List (Slot × Finset Nat)) (p : Slot × Finset Nat)
      (l2 : List (Slot × Finset Nat)), SortedKeys (l1 ++ p :: l2) → p.1 = s →
      findSlotIdx s (l1 ++ p :: l2) = some l1.length := by
  intro l1
  induction l1 with
  | nil =>
    intro p l2 _ hp
    rw [List.nil_append,
      show findSlotIdx s (p :: l2) =
        (if p.1 = s then some 0 else (findSlotIdx s l2).map (· + 1)) from rfl,
      if_pos hp]
    rfl
  | cons q l1 ih =>
    intro p l2 hs hp
    obtain ⟨hhead, htail⟩ := List.pairwise_cons.mp hs
    have hq : q.1 ≠ s := by
      have hlt : Slot.lt q.1 p.1 = true :=
        hhead p (List.mem_append.mpr (Or.inr (List.mem_cons_self _ _)))
      intro hc
      rw [hc, ← hp] at hlt
      rw [Slot.lt_irrefl] at hlt
      exact Bool.false_ne_true hlt
    rw [List.cons_append,
      show findSlotIdx s (q :: (l1 ++ p :: l2)) =
        (if q.1 = s then some 0 else (findSlotIdx s (l1 ++ p :: l2)).map (· + 1)) from rfl,
      if_neg hq, ih p l2 htail hp]
    rfl

theorem drop_middle (l1 : List (Slot × Finset Nat)) (p : Slot × Finset Nat)
    (l2 : List (Slot × Finset Nat)) : (l1 ++ p :: l2).drop (l1.length + 1) = l2 := by
  induction l1 with
  | nil => rfl
  | cons q l1 ih => simp only [List.cons_append, List.length_cons, List.drop_succ_cons]; exact ih

theorem filter_middle {s : Slot} (l1 : List (Slot × Finset Nat)) (p : Slot × Finset Nat)
    (l2 : List (Slot × Finset Nat)) (hs : SortedKeys (l1 ++ p :: l2)) (hp : p.1 = s) :
    (l1 ++ p :: l2).filter (fun q => Slot.lt s q.1) = l2 := by
  rw [List.filter_append, List.filter_cons]
  have hmid : ∀ x, x ∈ p :: l2 → x ∈ l1 ++ p :: l2 := fun x hx =>
    List.mem_append.mpr (Or.inr hx)
  have h1 : l1.filter (fun q => Slot.lt s q.1) = [] := by
    rw [List.filter_eq_nil_iff]
    intro q hq
    have hlt : Slot.lt q.1 p.1 = true := by
      have := (List.pairwise_append.mp hs).2.2 q hq p (List.mem_cons_self _ _)
      exact this
    rw [hp] at hlt
    simp [Slot.lt_asymm hlt]
  have h2 : Slot.lt s p.1 = false := by rw [← hp]; exact Slot.lt_irrefl p.1
  have h3 : l2.filter (fun q => Slot.lt s q.1) = l2 := by
    rw [List.filter_eq_self]
    intro q hq
    have := (List.pairwise_append.mp hs).2.1
    have hlt : Slot.lt p.1 q.1 = true := (List.pairwise_cons.mp this).1 q hq
    rw [hp] at hlt
    simpa using hlt
  rw [h1, h3]
  simp [h2]

/-- Claim C5 counterexample: on the state whose only entry sits at slot
(5,0), resuming with cursor `Ongoing((2,0))` (a slot absent from the map)
returns `Finished` and an empty chunk, while the claimed behaviour (walk
from (2,0) exclusive) would copy the (5,0) entry and return
`Ongoing((5,0))`. -/
theorem get_part_spec_cex :
    (ExecutedOps.get_executed_ops_part
        ⟨⟨2, 10⟩, [(⟨5, 0⟩, {1})], {1}, 1⟩ (.ongoing ⟨2, 0⟩)).2 ≠
      (getPartSpec ⟨⟨2, 10⟩, [(⟨5, 0⟩, {1})], {1}, 1⟩ (.ongoing ⟨2, 0⟩)).2 := by
  decide

/-- Claim C5 (amended): `get_executed_ops_part` takes `&self` (it never
mutates the state), and — provided the cursor is not `Ongoing` of a slot
absent from `sorted_ops` — it returns exactly the chunk described by the
spec: at most `bootstrap_part_size` `(slot, ids)` pairs in ascending slot
order, from the smallest key inclusive for `Started` and from the cursor's
slot exclusive for `Ongoing(slot)`, with next cursor `Ongoing(last_slot
copied)` when at least one pair was copied and `Finished` otherwise. -/
theorem get_part_refines_spec (e : ExecutedOps) (hs : SortedKeys e.sorted_ops)
    (cursor : StreamingStep)
    (hc : ∀ s, cursor = .ongoing s → ∃ p ∈ e.sorted_ops, p.1 = s) :
    e.get_executed_ops_part cursor = getPartSpec e cursor := by
  cases cursor with
  | started => rfl
  | finished => rfl
  | ongoing s =>
    obtain ⟨p, hp, hps⟩ := hc s rfl
    obtain ⟨l1, l2, hdec⟩ := List.append_of_mem hp
    rw [ExecutedOps.get_executed_ops_part, getPartSpec, hdec,
      findSlotIdx_found l1 p l2 (by rw [← hdec]; exact hs) hps]
    show mkPart ((l1 ++ p :: l2).drop (l1.length + 1)) e.config.bootstrap_part_size = _
    rw [drop_middle, filter_middle l1 p l2 (by rw [← hdec]; exact hs) hps]

/-- Witness for the amended claim C5 at a concrete state and cursor. -/
theorem get_part_refines_spec_witness :
    SortedKeys [((⟨2, 0⟩ : Slot), ({7} : Finset Nat)), (⟨5, 0⟩, {1})] ∧
    (∀ s, StreamingStep.ongoing (⟨2, 0⟩ : Slot) = .ongoing s →
      ∃ p ∈ [((⟨2, 0⟩ : Slot), ({7} : Finset Nat)), (⟨5, 0⟩, {1})], p.1 = s) ∧
    ExecutedOps.get_executed_ops_part
        ⟨⟨2, 10⟩, [(⟨2, 0⟩, {7}), (⟨5, 0⟩, {1})], {1, 7}, 6⟩ (.ongoing ⟨2, 0⟩) =
      getPartSpec ⟨⟨2, 10⟩, [(⟨2, 0⟩, {7}), (⟨5, 0⟩, {1})], {1, 7}, 6⟩ (.ongoing ⟨2, 0⟩) := by
  have h1 : SortedKeys [((⟨2, 0⟩ : Slot), ({7} : Finset Nat)), (⟨5, 0⟩, {1})] := by
    simp [SortedKeys, Slot.lt]
  have h2 : ∀ s, StreamingStep.ongoing (⟨2, 0⟩ : Slot) = .ongoing s →
      ∃ p ∈ [((⟨2, 0⟩ : Slot), ({7} : Finset Nat)), (⟨5, 0⟩, {1})], p.1 = s := by
    rintro s h
    cases h
    exact ⟨(⟨2, 0⟩, {7}), List.mem_cons_self _ _, rfl⟩
  exact ⟨h1, h2, get_part_refines_spec ⟨⟨2, 10⟩, [(⟨2, 0⟩, {7}), (⟨5, 0⟩, {1})], {1, 7}, 6⟩
    h1 (.ongoing ⟨2, 0⟩) h2⟩

/-- Claim C10: when `sorted_ops` does not contain the cursor slot `s` as a
key, `get_executed_ops_part (Ongoing s)` returns an empty chunk and the
cursor `Finished`, even when keys strictly greater than `s` are present. -/
theorem get_part_absent_cursor (e : ExecutedOps) (s : Slot)
    (h : ∀ p ∈ e.sorted_ops, p.1 ≠ s) :
    e.get_executed_ops_part (.ongoing s) = ([], .finished) := by
  rw [ExecutedOps.get_executed_ops_part, findSlotIdx_none h]

/-- Witness for claim C10: the state has an entry at slot (5,0) (strictly
greater than the pruned cursor slot (2,0)) and the stream nevertheless
terminates. -/
theorem get_part_absent_cursor_witness :
    (∀ p ∈ [((⟨5, 0⟩ : Slot), ({1} : Finset Nat))], p.1 ≠ (⟨2, 0⟩ : Slot)) ∧
    ExecutedOps.get_executed_ops_part
        ⟨⟨2, 10⟩, [(⟨5, 0⟩, {1})], {1}, 1⟩ (.ongoing ⟨2, 0⟩) = ([], .finished) := by
  have h : ∀ p ∈ [((⟨5, 0⟩ : Slot), ({1} : Finset Nat))], p.1 ≠ (⟨2, 0⟩ : Slot) := by
    decide
  exact ⟨h, get_part_absent_cursor ⟨⟨2, 10⟩, [(⟨5, 0⟩, {1})], {1}, 1⟩ ⟨2, 0⟩ h⟩

/-- First-match association lookup in the (sorted) map, i.e.
`BTreeMap::get`. -/
def btLookup : List (Slot × Finset Nat) → Slot → Option (Finset Nat)
  | [], _ => none
  | p :: rest, s => if p.1 = s then some p.2 else btLookup rest s

/-- The value a chunk assigns to a slot: its LAST entry under that slot
(later pairs of the iterator override earlier ones in `extend`). -/
def lastLookup (part : List (Slot × Finset Nat)) (s : Slot) : Option (Finset Nat) :=
  btLookup part.reverse s

theorem btLookup_btReplace (k : Slot) (v : Finset Nat) :
    ∀ (l : List (Slot × Finset Nat)) (x : Slot),
      btLookup (btReplace k v l) x = if x = k then some v else btLookup l x := by
  intro l
  induction l with
  | nil =>
    intro x
    by_cases hx : x = k
    · subst hx
      simp [btReplace, btLookup]
    · have hkx : ¬ k = x := fun h => hx h.symm
      simp [btReplace, btLookup, hx, hkx]
  | cons q rest ih =>
    intro x
    obtain ⟨s, w⟩ := q
    by_cases h1 : Slot.lt s k = true
    · rw [show btReplace k v ((s, w) :: rest) = (s, w) :: btReplace k v rest by
        simp [btReplace, h1]]
      by_cases hsx : s = x
      · subst hsx
        have hxk : ¬ s = k := by
          intro hc
          rw [hc] at h1
          rw [Slot.lt_irrefl] at h1
          exact Bool.false_ne_true h1
        simp [btLookup, hxk]
      · simp [btLookup, hsx, ih x]
    · by_cases h2 : s = k
      · rw [show btReplace k v ((s, w) :: rest) = (k, v) :: rest by
          simp [btReplace, h1, h2, Slot.lt_irrefl]]
        subst h2
        by_cases hx : x = s
        · subst hx
          simp [btLookup]
        · have hsx : ¬ s = x := fun h => hx h.symm
          simp [btLookup, hx, hsx]
      · rw [show btReplace k v ((s, w) :: rest) = (k, v) :: (s, w) :: rest by
          simp [btReplace, h1, h2, Slot.lt_irrefl]]
        by_cases hx : x = k
        · subst hx
          simp [btLookup]
        · have hkx : ¬ k = x := fun h => hx h.symm
          simp [btLookup, hkx, hx]

theorem btLookup_append (l1 l2 : List (Slot × Finset Nat)) (x : Slot) :
    btLookup (l1 ++ l2) x = (btLookup l1 x).or (btLookup l2 x) := by
  induction l1 with
  | nil => rfl
  | cons p rest ih =>
    by_cases hp : p.1 = x <;> simp [btLookup, hp, ih]

theorem btExtendFold_lookup :
    ∀ (part : List (Slot × Finset Nat)) (l : List (Slot × Finset Nat)) (x : Slot),
      btLookup (part.foldl (fun l (p : Slot × Finset Nat) => btReplace p.1 p.2 l) l) x =
        (lastLookup part x).or (btLookup l x) := by
  intro part
  induction part with
  | nil => intro l x; rfl
  | cons p rest ih =>
    intro l x
    rw [List.foldl_cons, ih, lastLookup,
      show lastLookup (p :: rest) x = (btLookup rest.reverse x).or (btLookup [p] x) by
        rw [lastLookup, List.reverse_cons, btLookup_append],
      btLookup_btReplace, Option.or_assoc]
    congr 1
    by_cases hx : x = p.1
    · subst hx
      simp [btLookup]
    · have hpx : ¬ p.1 = x := fun h => hx h.symm
      simp [btLookup, hx, hpx]

theorem btReplace_entry (k : Slot) (v : Finset Nat) :
    ∀ (l : List (Slot × Finset Nat)) (p : Slot × Finset Nat), p ∈ btReplace k v l →
      p = (k, v) ∨ p ∈ l := by
  intro l
  induction l with
  | nil =>
    intro p hp
    simp only [btReplace, List.mem_singleton] at hp
    exact Or.inl hp
  | cons q rest ih =>
    intro p hp
    obtain ⟨s, w⟩ := q
    by_cases h1 : Slot.lt s k = true
    · rw [show btReplace k v ((s, w) :: rest) = (s, w) :: btReplace k v rest by
        simp [btReplace, h1]] at hp
      rcases List.mem_cons.mp hp with rfl | hp
      · exact Or.inr (List.mem_cons_self _ _)
      · rcases ih p hp with h | h
        · exact Or.inl h
        · exact Or.inr (List.mem_cons_of_mem _ h)
    · by_cases h2 : s = k
      · rw [show btReplace k v ((s, w) :: rest) = (k, v) :: rest by
          simp [btReplace, h1, h2, Slot.lt_irrefl]] at hp
        rcases List.mem_cons.mp hp with rfl | hp
        · exact Or.inl rfl
        · exact Or.inr (List.mem_cons_of_mem _ hp)
      · rw [show btReplace k v ((s, w) :: rest) = (k, v) :: (s, w) :: rest by
          simp [btReplace, h1, h2, Slot.lt_irrefl]] at hp
        rcases List.mem_cons.mp hp with rfl | hp
        · exact Or.inl rfl
        · exact Or.inr hp

theorem btReplace_sorted (k : Slot) (v : Finset Nat) :
    ∀ {l : List (Slot × Finset Nat)}, SortedKeys l → SortedKeys (btReplace k v l) := by
  intro l
  induction l with
  | nil => intro _; simp [btReplace, SortedKeys]
  | cons q rest ih =>
    intro hs
    obtain ⟨s, w⟩ := q
    obtain ⟨hhead, htail⟩ := List.pairwise_cons.mp hs
    by_cases h1 : Slot.lt s k = true
    · rw [show btReplace k v ((s, w) :: rest) = (s, w) :: btReplace k v rest by
        simp [btReplace, h1]]
      refine List.pairwise_cons.mpr ⟨?_, ih htail⟩
      intro p hp
      rcases btReplace_entry k v rest p hp with rfl | hp
      · exact h1
      · exact hhead p hp
    · by_cases h2 : s = k
      · rw [show btReplace k v ((s, w) :: rest) = (k, v) :: rest by
          simp [btReplace, h1, h2, Slot.lt_irrefl]]
        refine List.pairwise_cons.mpr ⟨?_, htail⟩
        intro p hp
        rw [← h2]
        exact hhead p hp
      · rw [show btReplace k v ((s, w) :: rest) = (k, v) :: (s, w) :: rest by
          simp [btReplace, h1, h2, Slot.lt_irrefl]]
        have hlt : Slot.lt k s = true := by
          rcases Bool.eq_false_or_eq_true (Slot.lt k s) with h | h
          · exact h
          · exact absurd (Slot.eq_of_not_lt h1 (by simp [h]) : s = k) h2
        refine List.pairwise_cons.mpr ⟨?_, hs⟩
        intro p hp
        rcases List.mem_cons.mp hp with rfl | hp
        · exact hlt
        · exact Slot.lt_trans hlt (hhead p hp)

theorem btExtendFold_sorted :
    ∀ (part : List (Slot × Finset Nat)) {l : List (Slot × Finset Nat)}, SortedKeys l →
      SortedKeys (part.foldl (fun l (p : Slot × Finset Nat) => btReplace p.1 p.2 l) l) := by
  intro part
  induction part with
  | nil => intro l hs; exact hs
  | cons p rest ih =>
    intro l hs
    rw [List.foldl_cons]
    exact ih (btReplace_sorted p.1 p.2 hs)

theorem lastKey_cons_cons (p q : Slot × Finset Nat) (rest : List (Slot × Finset Nat)) :
    lastKey (p :: q :: rest) = lastKey (q :: rest) := rfl

theorem lastKey_some : ∀ {l : List (Slot × Finset Nat)}, l ≠ [] → ∃ s, lastKey l = some s := by
  intro l
  induction l with
  | nil => intro h; exact absurd rfl h
  | cons p rest ih =>
    intro _
    cases rest with
    | nil => exact ⟨p.1, rfl⟩
    | cons q rest2 =>
      obtain ⟨s, hsk⟩ := ih (by simp)
      exact ⟨s, by rw [lastKey_cons_cons]; exact hsk⟩

theorem lastKey_max : ∀ {l : List (Slot × Finset Nat)}, SortedKeys l →
    ∀ {s : Slot}, lastKey l = some s →
      (∃ v, (s, v) ∈ l) ∧ ∀ p ∈ l, Slot.lt s p.1 = false := by
  intro l
  induction l with
  | nil => intro _ s h; cases h
  | cons p rest ih =>
    intro hs s hl
    obtain ⟨hhead, htail⟩ := List.pairwise_cons.mp hs
    cases rest with
    | nil =>
      have hp : p.1 = s := by
        have : some p.1 = some s := hl
        exact Option.some.inj this
      subst hp
      refine ⟨⟨p.2, by simp⟩, ?_⟩
      intro q hq
      rcases List.mem_singleton.mp hq with rfl
      exact Slot.lt_irrefl q.1
    | cons q rest2 =>
      rw [lastKey_cons_cons] at hl
      obtain ⟨⟨v, hv⟩, hmax⟩ := ih htail hl
      refine ⟨⟨v, List.mem_cons_of_mem _ hv⟩, ?_⟩
      intro r hr
      rcases List.mem_cons.mp hr with rfl | hr
      · have hlt : Slot.lt r.1 s = true := by
          have := hhead (s, v) hv
          exact this
        exact Slot.lt_asymm hlt
      · exact hmax r hr

theorem partIds_toFinset : ∀ part : List (Slot × Finset Nat),
    (part.foldr (fun (p : Slot × Finset Nat) acc => finList p.2 ++ acc) []).toFinset =
      unionValues part := by
  intro part
  induction part with
  | nil => rfl
  | cons p rest ih =>
    rw [List.foldr_cons, List.toFinset_append, finList_toFinset, ih]
    rfl

/-- Claim C6 counterexample: the state stores `{1}` under slot (2,0); feeding
the chunk `[((2,0), {2})]` through `set_executed_ops_part` REPLACES the
stored set with `{2}` (BTreeMap `extend` semantics) instead of merging, so
the previously stored id 1 is discarded from `sorted_ops`. -/
theorem set_part_merge_cex :
    (1 : Nat) ∈ (btLookup
        (⟨⟨2, 10⟩, [(⟨2, 0⟩, {1})], {1}, 1⟩ : ExecutedOps).sorted_ops ⟨2, 0⟩).getD ∅ ∧
    (1 : Nat) ∉ (btLookup
        ((ExecutedOps.set_executed_ops_part
          ⟨⟨2, 10⟩, [(⟨2, 0⟩, {1})], {1}, 1⟩ [(⟨2, 0⟩, {2})]).1.sorted_ops) ⟨2, 0⟩).getD ∅ := by
  decide

/-- Claim C6 (amended): for every well-formed `ExecutedOps` state and every
chunk, `set_executed_ops_part` stores each `(slot, ids)` pair of the chunk
into `sorted_ops`, REPLACING (not merging) any id set already stored under
the same slot key (the chunk's last entry for a slot wins); it XORs into
`hash` exactly the hashes of those chunk ids not already in `ops` and adds
them to `ops`; and it returns `Ongoing(last_slot)` — the maximal key of the
resulting store — if the store is non-empty and `Finished` otherwise. -/
theorem set_part_spec (e : ExecutedOps) (hs : SortedKeys e.sorted_ops)
    (part : List (Slot × Finset Nat)) :
    (∀ x : Slot, btLookup (e.set_executed_ops_part part).1.sorted_ops x =
      (lastLookup part x).or (btLookup e.sorted_ops x)) ∧
    (e.set_executed_ops_part part).1.ops = e.ops ∪ unionValues part ∧
    (e.set_executed_ops_part part).1.hash =
      xorOp e.hash (xorFin (unionValues part \ e.ops)) ∧
    ((e.set_executed_ops_part part).1.sorted_ops = [] →
      (e.set_executed_ops_part part).2 = .finished) ∧
    ((e.set_executed_ops_part part).1.sorted_ops ≠ [] →
      ∃ s, (e.set_executed_ops_part part).2 = .ongoing s ∧
        (∃ v, (s, v) ∈ (e.set_executed_ops_part part).1.sorted_ops) ∧
        ∀ p ∈ (e.set_executed_ops_part part).1.sorted_ops, Slot.lt s p.1 = false) := by
  obtain ⟨x1, x2, x3, x4⟩ := extend_and_compute_hash_spec
    (part.foldr (fun (p : Slot × Finset Nat) acc => finList p.2 ++ acc) [])
    { e with sorted_ops :=
        part.foldl (fun l (p : Slot × Finset Nat) => btReplace p.1 p.2 l) e.sorted_ops }
  have hfst : (e.set_executed_ops_part part).1 = ExecutedOps.extend_and_compute_hash
      { e with sorted_ops :=
          part.foldl (fun l (p : Slot × Finset Nat) => btReplace p.1 p.2 l) e.sorted_ops }
      (part.foldr (fun (p : Slot × Finset Nat) acc => finList p.2 ++ acc) []) := by
    rw [ExecutedOps.set_executed_ops_part]
    cases hlk : lastKey (ExecutedOps.extend_and_compute_hash
        { e with sorted_ops :=
            part.foldl (fun l (p : Slot × Finset Nat) => btReplace p.1 p.2 l) e.sorted_ops }
        (part.foldr (fun (p : Slot × Finset Nat) acc => finList p.2 ++ acc) [])).sorted_ops with
    | none => simp only [hlk]
    | some s => simp only [hlk]
  have hsorted2 : (e.set_executed_ops_part part).1.sorted_ops =
      part.foldl (fun l (p : Slot × Finset Nat) => btReplace p.1 p.2 l) e.sorted_ops := by
    rw [hfst, x3]
  have hsnd : (e.set_executed_ops_part part).2 =
      match lastKey (e.set_executed_ops_part part).1.sorted_ops with
      | some s => StreamingStep.ongoing s
      | none => StreamingStep.finished := by
    rw [hfst, ExecutedOps.set_executed_ops_part]
    cases hlk : lastKey (ExecutedOps.extend_and_compute_hash
        { e with sorted_ops :=
            part.foldl (fun l (p : Slot × Finset Nat) => btReplace p.1 p.2 l) e.sorted_ops }
        (part.foldr (fun (p : Slot × Finset Nat) acc => finList p.2 ++ acc) [])).sorted_ops with
    | none => simp only [hlk]
    | some s => simp only [hlk]
  refine ⟨?_, ?_, ?_, ?_, ?_⟩
  · intro x
    rw [hsorted2]
    exact btExtendFold_lookup part e.sorted_ops x
  · rw [hfst, x1, partIds_toFinset]
  · rw [hfst, x2, partIds_toFinset]
  · intro hnil
    rw [hsnd]
    rw [hnil]
    rfl
  · intro hne
    obtain ⟨s, hsk⟩ := lastKey_some hne
    have hsort : SortedKeys (e.set_executed_ops_part part).1.sorted_ops := by
      rw [hsorted2]
      exact btExtendFold_sorted part hs
    obtain ⟨hvmem, hmax⟩ := lastKey_max hsort hsk
    refine ⟨s, ?_, hvmem, hmax⟩
    rw [hsnd, hsk]

/-- Witness for the amended claim C6 at a concrete state and chunk (the
replacement-semantics lookup equation). -/
theorem set_part_spec_witness :
    SortedKeys ((⟨⟨2, 10⟩, [(⟨2, 0⟩, {1})], {1}, 1⟩ : ExecutedOps).sorted_ops) ∧
    ∀ x : Slot, btLookup (ExecutedOps.set_executed_ops_part
        (⟨⟨2, 10⟩, [(⟨2, 0⟩, {1})], {1}, 1⟩ : ExecutedOps) [(⟨2, 0⟩, {2})]).1.sorted_ops x =
      (lastLookup [(⟨2, 0⟩, {2})] x).or
        (btLookup (⟨⟨2, 10⟩, [(⟨2, 0⟩, {1})], {1}, 1⟩ : ExecutedOps).sorted_ops x) := by
  have h1 : SortedKeys ((⟨⟨2, 10⟩, [(⟨2, 0⟩, {1})], {1}, 1⟩ : ExecutedOps).sorted_ops) := by
    simp [SortedKeys]
  exact ⟨h1, (set_part_spec ⟨⟨2, 10⟩, [(⟨2, 0⟩, {1})], {1}, 1⟩ h1 [(⟨2, 0⟩, {2})]).1⟩

theorem unionValues_append (l1 l2 : List (Slot × Finset Nat)) :
    unionValues (l1 ++ l2) = unionValues l1 ∪ unionValues l2 := by
  ext x
  simp only [mem_unionValues, Finset.mem_union, List.mem_append]
  constructor
  · rintro ⟨p, hp | hp, hx⟩
    · exact Or.inl ⟨p, hp, hx⟩
    · exact Or.inr ⟨p, hp, hx⟩
  · rintro (⟨p, hp, hx⟩ | ⟨p, hp, hx⟩)
    · exact ⟨p, Or.inl hp, hx⟩
    · exact ⟨p, Or.inr hp, hx⟩

theorem btReplace_append (k : Slot) (v : Finset Nat) :
    ∀ {l : List (Slot × Finset Nat)}, (∀ q ∈ l, Slot.lt q.1 k = true) →
      btReplace k v l = l ++ [(k, v)] := by
  intro l
  induction l with
  | nil => intro _; rfl
  | cons q rest ih =>
    intro h
    obtain ⟨s, w⟩ := q
    have h1 : Slot.lt s k = true := h (s, w) (List.mem_cons_self _ _)
    rw [show btReplace k v ((s, w) :: rest) = (s, w) :: btReplace k v rest by
      simp [btReplace, h1]]
    rw [ih (fun q hq => h q (List.mem_cons_of_mem _ hq))]
    rfl

theorem btExtendFold_append :
    ∀ (part : List (Slot × Finset Nat)) {l : List (Slot × Finset Nat)},
      SortedKeys (l ++ part) →
      part.foldl (fun l (p : Slot × Finset Nat) => btReplace p.1 p.2 l) l = l ++ part := by
  intro part
  induction part with
  | nil => intro l _; simp
  | cons p rest ih =>
    intro l hs
    rw [List.foldl_cons]
    have hlt : ∀ q ∈ l, Slot.lt q.1 p.1 = true := by
      intro q hq
      exact (List.pairwise_append.mp hs).2.2 q hq p (List.mem_cons_self _ _)
    rw [btReplace_append p.1 p.2 hlt,
      @ih (l ++ [p]) (by rw [List.append_assoc]; exact hs), List.append_assoc]
    rfl

theorem lastKey_decomp : ∀ {l : List (Slot × Finset Nat)} {s : Slot}, lastKey l = some s →
    ∃ l' v, l = l' ++ [(s, v)] := by
  intro l
  induction l with
  | nil => intro s h; cases h
  | cons p rest ih =>
    intro s h
    cases rest with
    | nil =>
      have hp : p.1 = s := Option.some.inj h
      refine ⟨[], p.2, ?_⟩
      rw [← hp]
      rfl
    | cons q rest2 =>
      rw [lastKey_cons_cons] at h
      obtain ⟨l', v, hd⟩ := ih h
      refine ⟨p :: l', v, ?_⟩
      rw [hd]
      rfl

theorem mkPart_eq (l : List (Slot × Finset Nat)) (n : Nat) :
    mkPart l n =
      (match lastKey (l.take n) with
        | some s => (l.take n, StreamingStep.ongoing s)
        | none => (l.take n, StreamingStep.finished)) := rfl

theorem set_part_fst (e : ExecutedOps) (part : List (Slot × Finset Nat)) :
    (e.set_executed_ops_part part).1 =
      ExecutedOps.extend_and_compute_hash
        { e with sorted_ops :=
            part.foldl (fun l (p : Slot × Finset Nat) => btReplace p.1 p.2 l) e.sorted_ops }
        (part.foldr (fun (p : Slot × Finset Nat) acc => finList p.2 ++ acc) []) := by
  rw [ExecutedOps.set_executed_ops_part]
  cases hlk : lastKey (ExecutedOps.extend_and_compute_hash
      { e with sorted_ops :=
          part.foldl (fun l (p : Slot × Finset Nat) => btReplace p.1 p.2 l) e.sorted_ops }
      (part.foldr (fun (p : Slot × Finset Nat) acc => finList p.2 ++ acc) [])).sorted_ops with
  | none => simp only [hlk]
  | some s => simp only [hlk]

theorem streamLoop_succ (src dst : ExecutedOps) (cursor : StreamingStep) (fuel : Nat) :
    streamLoop src dst cursor (fuel + 1) =
      (match (src.get_executed_ops_part cursor).2 with
        | .finished => some (dst.set_executed_ops_part (src.get_executed_ops_part cursor).1).1
        | c => streamLoop src
            (dst.set_executed_ops_part (src.get_executed_ops_part cursor).1).1 c fuel) := rfl

theorem streamLoop_go :
    ∀ (fuel : Nat) (src : ExecutedOps) (pre suf : List (Slot × Finset Nat)) (dst : ExecutedOps)
      (cursor : StreamingStep),
      SortedKeys src.sorted_ops →
      0 < src.config.bootstrap_part_size →
      src.sorted_ops = pre ++ suf →
      dst.sorted_ops = pre →
      dst.ops = unionValues pre →
      dst.hash = xorFin dst.ops →
      ((cursor = StreamingStep.started ∧ pre = []) ∨
        (∃ pre' v k, pre = pre' ++ [(k, v)] ∧ cursor = StreamingStep.ongoing k)) →
      suf.length < fuel →
      ∃ R, streamLoop src dst cursor fuel = some R ∧
        R.sorted_ops = src.sorted_ops ∧
        R.ops = unionValues src.sorted_ops ∧
        R.hash = xorFin R.ops := by
  intro fuel
  induction fuel with
  | zero =>
    intro src pre suf dst cursor _ _ _ _ _ _ _ hf
    omega
  | succ fuel ih =>
    intro src pre suf dst cursor hs hpos hsplit hd1 hd2 hd3 hcur hf
    have hget : src.get_executed_ops_part cursor =
        mkPart suf src.config.bootstrap_part_size := by
      rcases hcur with ⟨rfl, rfl⟩ | ⟨pre', v, k, hpre, rfl⟩
      · show mkPart src.sorted_ops src.config.bootstrap_part_size = _
        rw [hsplit]
        rfl
      · have hsplit2 : src.sorted_ops = pre' ++ (k, v) :: suf := by
          rw [hsplit, hpre, List.append_assoc]
          rfl
        show (match findSlotIdx k src.sorted_ops with
          | some idx => mkPart (src.sorted_ops.drop (idx + 1)) src.config.bootstrap_part_size
          | none => ([], StreamingStep.finished)) = _
        rw [hsplit2, findSlotIdx_found pre' (k, v) suf (by rw [← hsplit2]; exact hs) rfl]
        show mkPart ((pre' ++ (k, v) :: suf).drop (pre'.length + 1)) _ = _
        rw [drop_middle]
    cases suf with
    | nil =>
      have hpr : src.get_executed_ops_part cursor = ([], StreamingStep.finished) := by
        rw [hget, mkPart_eq, List.take_nil]
        rfl
      have hdst2 : (dst.set_executed_ops_part []).1 = dst := by
        rw [set_part_fst]
        rfl
      refine ⟨dst, ?_, ?_, ?_, hd3⟩
      · rw [streamLoop_succ, hpr]
        show some (dst.set_executed_ops_part []).1 = some dst
        rw [hdst2]
      · rw [hd1, hsplit, List.append_nil]
      · rw [hd2, hsplit, List.append_nil]
    | cons q suf2 =>
      have hchunk_ne : (q :: suf2).take src.config.bootstrap_part_size ≠ [] := by
        cases hp : src.config.bootstrap_part_size with
        | zero => omega
        | succ m => simp
      obtain ⟨s, hlk⟩ := lastKey_some hchunk_ne
      obtain ⟨chunk', v', hcdec⟩ := lastKey_decomp hlk
      have hget2 : src.get_executed_ops_part cursor =
          ((q :: suf2).take src.config.bootstrap_part_size, StreamingStep.ongoing s) := by
        rw [hget, mkPart_eq, hlk]
      have hsortedPreChunk :
          SortedKeys (pre ++ (q :: suf2).take src.config.bootstrap_part_size) := by
        have hsub : (pre ++ (q :: suf2).take src.config.bootstrap_part_size).Sublist
            (pre ++ (q :: suf2)) :=
          List.Sublist.append_left (List.take_sublist _ _) pre
        exact List.Pairwise.sublist hsub (by rw [← hsplit]; exact hs)
      have hfold : ((q :: suf2).take src.config.bootstrap_part_size).foldl
          (fun l (p : Slot × Finset Nat) => btReplace p.1 p.2 l) dst.sorted_ops =
          pre ++ (q :: suf2).take src.config.bootstrap_part_size := by
        rw [hd1]
        exact btExtendFold_append _ hsortedPreChunk
      obtain ⟨x1, x2, x3, x4⟩ := extend_and_compute_hash_spec
        (((q :: suf2).take src.config.bootstrap_part_size).foldr
          (fun (p : Slot × Finset Nat) acc => finList p.2 ++ acc) [])
        { dst with sorted_ops := (((q :: suf2).take src.config.bootstrap_part_size).foldl
            (fun l (p : Slot × Finset Nat) => btReplace p.1 p.2 l) dst.sorted_ops) }
      have hset := set_part_fst dst ((q :: suf2).take src.config.bootstrap_part_size)
      have hd1' : (dst.set_executed_ops_part
          ((q :: suf2).take src.config.bootstrap_part_size)).1.sorted_ops =
          pre ++ (q :: suf2).take src.config.bootstrap_part_size := by
        rw [hset, x3]
        exact hfold
      have hd2' : (dst.set_executed_ops_part
          ((q :: suf2).take src.config.bootstrap_part_size)).1.ops =
          unionValues (pre ++ (q :: suf2).take src.config.bootstrap_part_size) := by
        rw [hset, x1]
        show dst.ops ∪ _ = _
        rw [hd2, partIds_toFinset, unionValues_append]
      have hd3' : (dst.set_executed_ops_part
          ((q :: suf2).take src.config.bootstrap_part_size)).1.hash =
          xorFin (dst.set_executed_ops_part
            ((q :: suf2).take src.config.bootstrap_part_size)).1.ops := by
        rw [hd2', hset, x2]
        show xorOp dst.hash _ = _
        rw [hd3, xorFin_union_sdiff]
        show xorFin (dst.ops ∪ _) = _
        rw [hd2, partIds_toFinset, unionValues_append]
      have hcur' : (StreamingStep.ongoing s = StreamingStep.started ∧
          pre ++ (q :: suf2).take src.config.bootstrap_part_size = []) ∨
          ∃ pre'' v'' k'',
            pre ++ (q :: suf2).take src.config.bootstrap_part_size = pre'' ++ [(k'', v'')] ∧
            StreamingStep.ongoing s = StreamingStep.ongoing k'' := by
        right
        refine ⟨pre ++ chunk', v', s, ?_, rfl⟩
        rw [hcdec, List.append_assoc]
      have hsplit' : src.sorted_ops =
          (pre ++ (q :: suf2).take src.config.bootstrap_part_size) ++
            (q :: suf2).drop src.config.bootstrap_part_size := by
        rw [hsplit, List.append_assoc, List.take_append_drop]
      have hflen : ((q :: suf2).drop src.config.bootstrap_part_size).length < fuel := by
        rw [List.length_drop]
        have h1 : (q :: suf2).length < fuel + 1 := hf
        have h2 : 0 < (q :: suf2).length := by simp
        omega
      obtain ⟨R, r1, r2, r3, r4⟩ := ih src
        (pre ++ (q :: suf2).take src.config.bootstrap_part_size)
        ((q :: suf2).drop src.config.bootstrap_part_size)
        (dst.set_executed_ops_part ((q :: suf2).take src.config.bootstrap_part_size)).1
        (StreamingStep.ongoing s) hs hpos hsplit' hd1' hd2' hd3' hcur' hflen
      refine ⟨R, ?_, r2, r3, r4⟩
      rw [streamLoop_succ, hget2]
      exact r1

/-- Claim C3 counterexample: the state with `sorted_ops = [((5,0), {1})]`,
`ops = ∅`, `hash = 0` is reachable by `apply_changes`/`prune` calls (apply id
1 under slots (2,0) and (5,0), then prune at (3,0)); streaming it from
`Started` into a fresh instance terminates but reconstructs `hash = 1 ≠ 0`:
the round trip does not preserve `hash` for every state. -/
theorem stream_round_trip_cex :
    (streamLoop ⟨⟨2, 10⟩, [(⟨5, 0⟩, {1})], ∅, 0⟩ (ExecutedOps.new ⟨2, 10⟩)
        StreamingStep.started 2).map ExecutedOps.hash = some 1 ∧
    (⟨⟨2, 10⟩, [(⟨5, 0⟩, {1})], ∅, 0⟩ : ExecutedOps).hash = 0 := by
  decide

/-- Claim C3 (amended): for every well-formed `ExecutedOps` state `S` whose
accumulator invariant holds (`S.hash` is the XOR of the hashes of the ids in
`sorted_ops`) and whose `bootstrap_part_size` is positive, iterating
`get_executed_ops_part` from `Started`, feeding each chunk into a fresh
instance via `set_executed_ops_part` and continuing with each returned
cursor, reaches `Finished` (within `|sorted_ops| + 1` rounds) and produces
an instance whose `hash` and `sorted_ops` equal those of `S`. -/
theorem stream_round_trip (src : ExecutedOps) (cfg : ExecutedOpsConfig)
    (hs : SortedKeys src.sorted_ops)
    (hpos : 0 < src.config.bootstrap_part_size)
    (hh : src.hash = xorFin (unionValues src.sorted_ops)) :
    ∃ R, streamLoop src (ExecutedOps.new cfg) StreamingStep.started
        (src.sorted_ops.length + 1) = some R ∧
      R.sorted_ops = src.sorted_ops ∧ R.hash = src.hash := by
  obtain ⟨R, h1, h2, h3, h4⟩ := streamLoop_go (src.sorted_ops.length + 1) src []
    src.sorted_ops (ExecutedOps.new cfg) StreamingStep.started hs hpos rfl rfl rfl rfl
    (Or.inl ⟨rfl, rfl⟩) (by omega)
  refine ⟨R, h1, h2, ?_⟩
  rw [h4, h3, hh]

/-- Witness for the amended claim C3 at a concrete two-entry state. -/
theorem stream_round_trip_witness :
    SortedKeys ((⟨⟨2, 1⟩, [(⟨2, 0⟩, {7}), (⟨5, 0⟩, {1})], {1, 7}, 6⟩ :
      ExecutedOps).sorted_ops) ∧
    0 < (⟨⟨2, 1⟩, [(⟨2, 0⟩, {7}), (⟨5, 0⟩, {1})], {1, 7}, 6⟩ :
      ExecutedOps).config.bootstrap_part_size ∧
    (⟨⟨2, 1⟩, [(⟨2, 0⟩, {7}), (⟨5, 0⟩, {1})], {1, 7}, 6⟩ : ExecutedOps).hash =
      xorFin (unionValues (⟨⟨2, 1⟩, [(⟨2, 0⟩, {7}), (⟨5, 0⟩, {1})], {1, 7}, 6⟩ :
        ExecutedOps).sorted_ops) ∧
    ∃ R, streamLoop (⟨⟨2, 1⟩, [(⟨2, 0⟩, {7}), (⟨5, 0⟩, {1})], {1, 7}, 6⟩ : ExecutedOps)
        (ExecutedOps.new ⟨2, 10⟩) StreamingStep.started
        ((⟨⟨2, 1⟩, [(⟨2, 0⟩, {7}), (⟨5, 0⟩, {1})], {1, 7}, 6⟩ :
          ExecutedOps).sorted_ops.length + 1) = some R ∧
      R.sorted_ops = (⟨⟨2, 1⟩, [(⟨2, 0⟩, {7}), (⟨5, 0⟩, {1})], {1, 7}, 6⟩ :
        ExecutedOps).sorted_ops ∧
      R.hash = (⟨⟨2, 1⟩, [(⟨2, 0⟩, {7}), (⟨5, 0⟩, {1})], {1, 7}, 6⟩ : ExecutedOps).hash := by
  have h1 : SortedKeys ((⟨⟨2, 1⟩, [(⟨2, 0⟩, {7}), (⟨5, 0⟩, {1})], {1, 7}, 6⟩ :
      ExecutedOps).sorted_ops) := by
    simp [SortedKeys, Slot.lt]
  have h2 : 0 < (⟨⟨2, 1⟩, [(⟨2, 0⟩, {7}), (⟨5, 0⟩, {1})], {1, 7}, 6⟩ :
      ExecutedOps).config.bootstrap_part_size := by decide
  have h3 : (⟨⟨2, 1⟩, [(⟨2, 0⟩, {7}), (⟨5, 0⟩, {1})], {1, 7}, 6⟩ : ExecutedOps).hash =
      xorFin (unionValues (⟨⟨2, 1⟩, [(⟨2, 0⟩, {7}), (⟨5, 0⟩, {1})], {1, 7}, 6⟩ :
        ExecutedOps).sorted_ops) := by decide
  exact ⟨h1, h2, h3, stream_round_trip
    ⟨⟨2, 1⟩, [(⟨2, 0⟩, {7}), (⟨5, 0⟩, {1})], {1, 7}, 6⟩ ⟨2, 10⟩ h1 h2 h3⟩

/-- Deserialization failure kinds: a length prefix (or bounded integer) over
its configured bound (`CodecBounds`), or malformed/truncated input. -/
inductive DeserErr where
  | bounds
  | malformed
deriving DecidableEq, Repr

/-- Modelled from the spec: the variable-length encoding of unsigned
integers, 7-bit groups with a continuation bit (`U64VarIntSerializer` lives
in `massa-serialization`, outside `src/`). -/
def uvarintSer (n : Nat) : List Nat :=
  if h : n < 128 then [n] else (n % 128 + 128) :: uvarintSer (n / 128)
decreasing_by exact Nat.div_lt_self (by omega) (by omega)

/-- Modelled from the spec: varint decoding, 7-bit groups with a
continuation bit; fails on truncated input (`U64VarIntDeserializer` lives
outside `src/`). -/
def uvarintDeser : List Nat → Except DeserErr (Nat × List Nat)
  | [] => .error .malformed
  | b :: rest =>
    if b < 128 then .ok (b, rest)
    else
      match uvarintDeser rest with
      | .ok (v, r) => .ok (b - 128 + 128 * v, r)
      | .error e => .error e

/-- Modelled from the spec: a bounded varint deserializer
(`U64VarIntDeserializer::new(Included(0), Included(maxVal))`): decode, then
fail with a bounds error when the value exceeds `maxVal`. -/
def u64Deser (maxVal : Nat) (l : List Nat) : Except DeserErr (Nat × List Nat) :=
  match uvarintDeser l with
  | .ok (v, r) => if v ≤ maxVal then .ok (v, r) else .error .bounds
  | .error e => .error e

/-- Modelled from the spec: `Slot` is serialized as the period varint
followed by the thread byte (`SlotSerializer`, outside `src/`). -/
def slotSer (s : Slot) : List Nat := uvarintSer s.period ++ [s.thread]

/-- Modelled from the spec: slot deserialization reads the period varint
(bounded by `u64::MAX`) and the thread byte, which must be strictly below
`thread_count` (`SlotDeserializer::new((Included(u64::MIN),
Included(u64::MAX)), (Included(0), Excluded(thread_count)))`, outside
`src/`). -/
def slotDeser (threadCount : Nat) (l : List Nat) : Except DeserErr (Slot × List Nat) :=
  match u64Deser (2 ^ 64 - 1) l with
  | .error e => .error e
  | .ok (p, r) =>
    match r with
    | [] => .error .malformed
    | t :: r2 => if t < threadCount then .ok (⟨p, t⟩, r2) else .error .bounds

/-- Little-endian base-256 encoding of a number on `k` bytes. -/
def natToBytes : Nat → Nat → List Nat
  | 0, _ => []
  | k + 1, n => n % 256 :: natToBytes k (n / 256)

/-- Little-endian base-256 decoding. -/
def bytesToNat : List Nat → Nat
  | [] => 0
  | b :: l => b + 256 * bytesToNat l

/-- Modelled from the spec: an operation id is serialized as its raw 32
bytes (`op_id.to_bytes()`; `OperationId` lives outside `src/`); the 32-byte
string is the base-256 encoding of the id. -/
def opIdSer (id : OpId) : List Nat := natToBytes 32 id

/-- Modelled from the spec: operation-id deserialization consumes exactly 32
bytes (`OperationIdDeserializer`, outside `src/`). -/
def opIdDeser (l : List Nat) : Except DeserErr (OpId × List Nat) :=
  if 32 ≤ l.length then .ok (bytesToNat (l.take 32), l.drop 32) else .error .malformed

/-- `nom::multi::length_count`: run the element deserializer a prescribed
number of times, propagating its errors. -/
def deserCount {α : Type} (f : List Nat → Except DeserErr (α × List Nat)) :
    Nat → List Nat → Except DeserErr (List α × List Nat)
  | 0, l => .ok ([], l)
  | n + 1, l =>
    match f l with
    | .error e => .error e
    | .ok (a, l2) =>
      match deserCount f n l2 with
      | .error e => .error e
      | .ok (as, l3) => .ok (a :: as, l3)

/-- One `(slot, ids)` entry as `ExecutedOpsSerializer::serialize` writes it:
the slot, the ids-length varint, then the raw bytes of each id (in the
set's iteration order). -/
def entrySer (p : Slot × Finset Nat) : List Nat :=
  slotSer p.1 ++ uvarintSer p.2.card ++
    (finList p.2).foldr (fun id acc => opIdSer id ++ acc) []

/-- `ExecutedOpsSerializer::serialize`: the chunk-length varint, then each
`(slot, ids)` entry in order. -/
def executedOpsSerialize (x : List (Slot × Finset Nat)) : List Nat :=
  uvarintSer x.length ++ x.foldr (fun p acc => entrySer p ++ acc) []

/-- One slot entry as `ExecutedOpsDeserializer` parses it: the slot, the
inner length varint bounded by `max_operations_per_block`, then that many
operation ids, collected into a set. -/
def entryDeser (threadCount maxOps : Nat) (l : List Nat) :
    Except DeserErr ((Slot × Finset Nat) × List Nat) :=
  match slotDeser threadCount l with
  | .error e => .error e
  | .ok (s, l1) =>
    match u64Deser maxOps l1 with
    | .error e => .error e
    | .ok (k, l2) =>
      match deserCount opIdDeser k l2 with
      | .error e => .error e
      | .ok (ids, l3) => .ok ((s, ids.toFinset), l3)

/-- `ExecutedOpsDeserializer::deserialize`: the outer length varint bounded
by `max_executed_ops_length`, then that many slot entries. -/
def executedOpsDeserialize (threadCount maxLen maxOps : Nat) (l : List Nat) :
    Except DeserErr (List (Slot × Finset Nat) × List Nat) :=
  match u64Deser maxLen l with
  | .error e => .error e
  | .ok (n, l1) =>
    match deserCount (entryDeser threadCount maxOps) n l1 with
    | .error e => .error e
    | .ok (entries, l2) => .ok (entries, l2)

/-- The chunks accepted by the codec: lengths within the configured bounds,
threads below `thread_count`, periods and ids within their byte widths. -/
def ChunkInBounds (threadCount maxLen maxOps : Nat) (x : List (Slot × Finset Nat)) : Prop :=
  x.length ≤ maxLen ∧ ∀ p ∈ x, p.1.period < 2 ^ 64 ∧ p.1.thread < threadCount ∧
    p.2.card ≤ maxOps ∧ ∀ id ∈ p.2, id < 256 ^ 32

theorem uvarint_rt : ∀ (n : Nat) (rest : List Nat),
    uvarintDeser (uvarintSer n ++ rest) = .ok (n, rest) := by
  intro n
  induction n using Nat.strong_induction_on with
  | _ n ih =>
    intro rest
    rw [uvarintSer]
    by_cases h : n < 128
    · rw [dif_pos h]
      show uvarintDeser (n :: rest) = .ok (n, rest)
      simp [uvarintDeser, h]
    · rw [dif_neg h, List.cons_append]
      have hb : ¬ (n % 128 + 128 < 128) := by omega
      have hdiv : n / 128 < n := Nat.div_lt_self (by omega) (by omega)
      simp only [uvarintDeser, if_neg hb, ih (n / 128) hdiv rest]
      have hval : n % 128 + 128 - 128 + 128 * (n / 128) = n := by omega
      rw [hval]

theorem u64Deser_rt (maxVal n : Nat) (rest : List Nat) (h : n ≤ maxVal) :
    u64Deser maxVal (uvarintSer n ++ rest) = .ok (n, rest) := by
  rw [u64Deser, uvarint_rt]
  simp [h]

theorem natToBytes_length : ∀ (k n : Nat), (natToBytes k n).length = k := by
  intro k
  induction k with
  | zero => intro n; rfl
  | succ k ih => intro n; simp [natToBytes, ih]

theorem bytesToNat_natToBytes : ∀ (k n : Nat), n < 256 ^ k →
    bytesToNat (natToBytes k n) = n := by
  intro k
  induction k with
  | zero =>
    intro n h
    simp only [pow_zero, Nat.lt_one_iff] at h
    rw [h]
    rfl
  | succ k ih =>
    intro n h
    have hdiv : n / 256 < 256 ^ k :=
      Nat.div_lt_of_lt_mul (by rw [Nat.mul_comm, ← pow_succ]; exact h)
    rw [natToBytes, bytesToNat, ih (n / 256) hdiv]
    omega

theorem opId_rt (id : OpId) (rest : List Nat) (h : id < 256 ^ 32) :
    opIdDeser (opIdSer id ++ rest) = .ok (id, rest) := by
  rw [opIdDeser, opIdSer]
  have hlen : (natToBytes 32 id).length = 32 := natToBytes_length 32 id
  have hge : 32 ≤ (natToBytes 32 id ++ rest).length := by
    rw [List.length_append, hlen]
    omega
  rw [if_pos hge, List.take_left' hlen, List.drop_left' hlen,
    bytesToNat_natToBytes 32 id h]

theorem slot_rt (s : Slot) (rest : List Nat) (hp : s.period < 2 ^ 64)
    (tc : Nat) (ht : s.thread < tc) :
    slotDeser tc (slotSer s ++ rest) = .ok (s, rest) := by
  rw [slotDeser, slotSer, List.append_assoc, List.singleton_append,
    u64Deser_rt (2 ^ 64 - 1) s.period (s.thread :: rest) (by omega)]
  simp [ht]

theorem deserCount_rt {α : Type} (f : List Nat → Except DeserErr (α × List Nat))
    (ser : α → List Nat) :
    ∀ (as : List α), (∀ a ∈ as, ∀ r : List Nat, f (ser a ++ r) = .ok (a, r)) →
    ∀ rest : List Nat,
      deserCount f as.length (as.foldr (fun a acc => ser a ++ acc) [] ++ rest) =
        .ok (as, rest) := by
  intro as
  induction as with
  | nil => intro _ rest; rfl
  | cons a as ih =>
    intro H rest
    rw [List.length_cons, List.foldr_cons, List.append_assoc]
    rw [show deserCount f (as.length + 1)
        (ser a ++ (as.foldr (fun a acc => ser a ++ acc) [] ++ rest)) =
        (match f (ser a ++ (as.foldr (fun a acc => ser a ++ acc) [] ++ rest)) with
          | .error e => .error e
          | .ok (a2, l2) =>
            match deserCount f as.length l2 with
            | .error e => .error e
            | .ok (as2, l3) => .ok (a2 :: as2, l3)) from rfl,
      H a (List.mem_cons_self _ _) _]
    show (match deserCount f as.length (as.foldr (fun a acc => ser a ++ acc) [] ++ rest) with
      | Except.error e => Except.error e
      | Except.ok (as2, l3) => Except.ok (a :: as2, l3)) = Except.ok (a :: as, rest)
    rw [ih (fun b hb => H b (List.mem_cons_of_mem _ hb)) rest]

theorem finList_length (s : Finset Nat) : (finList s).length = s.card := by
  have h := finList_coe s
  rw [Finset.card, ← h]
  rfl

theorem entry_rt (tc maxOps : Nat) (p : Slot × Finset Nat) (rest : List Nat)
    (hp : p.1.period < 2 ^ 64) (ht : p.1.thread < tc) (hc : p.2.card ≤ maxOps)
    (hids : ∀ id ∈ p.2, id < 256 ^ 32) :
    entryDeser tc maxOps (entrySer p ++ rest) = .ok (p, rest) := by
  have hbytes : entrySer p ++ rest =
      slotSer p.1 ++ (uvarintSer p.2.card ++
        ((finList p.2).foldr (fun id acc => opIdSer id ++ acc) [] ++ rest)) := by
    rw [entrySer, List.append_assoc, List.append_assoc]
  rw [entryDeser, hbytes, slot_rt p.1 _ hp tc ht]
  show (match u64Deser maxOps (uvarintSer p.2.card ++
      ((finList p.2).foldr (fun id acc => opIdSer id ++ acc) [] ++ rest)) with
    | Except.error e => Except.error e
    | Except.ok (k, l2) =>
      match deserCount opIdDeser k l2 with
      | Except.error e => Except.error e
      | Except.ok (ids, l3) =>
        Except.ok ((p.1, ids.toFinset), l3)) = Except.ok (p, rest)
  rw [u64Deser_rt maxOps p.2.card _ hc]
  show (match deserCount opIdDeser p.2.card
      ((finList p.2).foldr (fun id acc => opIdSer id ++ acc) [] ++ rest) with
    | Except.error e => Except.error e
    | Except.ok (ids, l3) =>
      Except.ok ((p.1, ids.toFinset), l3)) = Except.ok (p, rest)
  rw [show p.2.card = (finList p.2).length from (finList_length p.2).symm,
    deserCount_rt opIdDeser opIdSer (finList p.2)
      (fun id hid r => opId_rt id r
        (hids id (finList_toFinset p.2 ▸ List.mem_toFinset.mpr hid))) rest]
  show Except.ok ((p.1, (finList p.2).toFinset), rest) = Except.ok (p, rest)
  rw [finList_toFinset]

theorem executedOps_rt (tc maxLen maxOps : Nat) (x : List (Slot × Finset Nat))
    (h : ChunkInBounds tc maxLen maxOps x) (rest : List Nat) :
    executedOpsDeserialize tc maxLen maxOps (executedOpsSerialize x ++ rest) =
      .ok (x, rest) := by
  obtain ⟨hlen, hentries⟩ := h
  rw [executedOpsDeserialize, executedOpsSerialize, List.append_assoc,
    u64Deser_rt maxLen x.length _ hlen]
  show (match deserCount (entryDeser tc maxOps) x.length
      (x.foldr (fun p acc => entrySer p ++ acc) [] ++ rest) with
    | Except.error e => Except.error e
    | Except.ok (entries, l2) => Except.ok (entries, l2)) = Except.ok (x, rest)
  rw [deserCount_rt (entryDeser tc maxOps) entrySer x
      (fun p hp r => entry_rt tc maxOps p r (hentries p hp).1 (hentries p hp).2.1
        (hentries p hp).2.2.1 (hentries p hp).2.2.2) rest]

/-- Claim C7: for every chunk within the configured bounds, deserializing
the bytes produced by `ExecutedOpsSerializer::serialize` succeeds, yields
the chunk back, and consumes exactly the serialized bytes (empty
remainder). -/
theorem executed_ops_codec_round_trip (tc maxLen maxOps : Nat)
    (x : List (Slot × Finset Nat)) (h : ChunkInBounds tc maxLen maxOps x) :
    executedOpsDeserialize tc maxLen maxOps (executedOpsSerialize x) = .ok (x, []) := by
  have := executedOps_rt tc maxLen maxOps x h []
  rw [List.append_nil] at this
  exact this

/-- Witness for claim C7 at a concrete one-entry chunk. -/
theorem executed_ops_codec_round_trip_witness :
    ChunkInBounds 2 10 10 [((⟨3, 1⟩ : Slot), ({1, 2} : Finset Nat))] ∧
    executedOpsDeserialize 2 10 10
        (executedOpsSerialize [((⟨3, 1⟩ : Slot), ({1, 2} : Finset Nat))]) =
      .ok ([((⟨3, 1⟩ : Slot), ({1, 2} : Finset Nat))], []) := by
  have h : ChunkInBounds 2 10 10 [((⟨3, 1⟩ : Slot), ({1, 2} : Finset Nat))] := by
    constructor
    · decide
    · intro p hp
      rcases List.mem_singleton.mp hp with rfl
      refine ⟨by decide, by decide, by decide, ?_⟩
      intro id hid
      rcases Finset.mem_insert.mp hid with rfl | hid
      · decide
      · rcases Finset.mem_singleton.mp hid with rfl
        decide
  exact ⟨h, executed_ops_codec_round_trip 2 10 10 _ h⟩

theorem deserCount_error {α : Type} (f : List Nat → Except DeserErr (α × List Nat))
    (ser : α → List Nat) :
    ∀ (as : List α), (∀ a ∈ as, ∀ r : List Nat, f (ser a ++ r) = .ok (a, r)) →
    ∀ (n : Nat) (l : List Nat) (er : DeserErr), as.length < n → f l = .error er →
      deserCount f n (as.foldr (fun a acc => ser a ++ acc) [] ++ l) = .error er := by
  intro as
  induction as with
  | nil =>
    intro _ n l er hn herr
    cases n with
    | zero => omega
    | succ m =>
      rw [List.foldr_nil, List.nil_append]
      rw [show deserCount f (m + 1) l =
          (match f l with
            | Except.error e => Except.error e
            | Except.ok (a2, l2) =>
              match deserCount f m l2 with
              | Except.error e => Except.error e
              | Except.ok (as2, l3) => Except.ok (a2 :: as2, l3)) from rfl,
        herr]
  | cons a as ih =>
    intro H n l er hn herr
    cases n with
    | zero => omega
    | succ m =>
      rw [List.foldr_cons, List.append_assoc]
      rw [show deserCount f (m + 1)
          (ser a ++ (as.foldr (fun a acc => ser a ++ acc) [] ++ l)) =
          (match f (ser a ++ (as.foldr (fun a acc => ser a ++ acc) [] ++ l)) with
            | Except.error e => Except.error e
            | Except.ok (a2, l2) =>
              match deserCount f m l2 with
              | Except.error e => Except.error e
              | Except.ok (as2, l3) => Except.ok (a2 :: as2, l3)) from rfl,
        H a (List.mem_cons_self _ _) _]
      show (match deserCount f m (as.foldr (fun a acc => ser a ++ acc) [] ++ l) with
        | Except.error e => Except.error e
        | Except.ok (as2, l3) => Except.ok (a :: as2, l3)) = Except.error er
      rw [ih (fun b hb => H b (List.mem_cons_of_mem _ hb)) m l er
        (by simp only [List.length_cons] at hn; omega) herr]

theorem entryDeser_inner_bounds (tc maxOps : Nat) (s : Slot) (k : Nat) (tail : List Nat)
    (hp : s.period < 2 ^ 64) (ht : s.thread < tc) (hk : maxOps < k) :
    entryDeser tc maxOps (slotSer s ++ (uvarintSer k ++ tail)) = .error .bounds := by
  rw [entryDeser, slot_rt s _ hp tc ht]
  show (match u64Deser maxOps (uvarintSer k ++ tail) with
    | Except.error e => Except.error e
    | Except.ok (k2, l2) =>
      match deserCount opIdDeser k2 l2 with
      | Except.error e => Except.error e
      | Except.ok (ids, l3) =>
        Except.ok ((s, ids.toFinset), l3)) = Except.error DeserErr.bounds
  rw [u64Deser, uvarint_rt]
  show (match (if k ≤ maxOps then Except.ok (k, tail)
      else (Except.error DeserErr.bounds : Except DeserErr (Nat × List Nat))) with
    | Except.error e => Except.error e
    | Except.ok (k2, l2) =>
      match deserCount opIdDeser k2 l2 with
      | Except.error e => Except.error e
      | Except.ok (ids, l3) =>
        Except.ok ((s, ids.toFinset), l3)) = Except.error DeserErr.bounds
  rw [if_neg (show ¬ k ≤ maxOps by omega)]

/-- Claim C8: `ExecutedOpsDeserializer::deserialize` fails with a bounds
error whenever the outer length varint decodes to a value strictly above
`max_executed_ops_length`, and whenever a slot entry's inner length varint
decodes to a value strictly above `max_operations_per_block` (after any
number of well-formed leading entries). -/
theorem executed_ops_deser_bounds (tc maxLen maxOps : Nat) :
    (∀ (l rest : List Nat) (n : Nat), uvarintDeser l = .ok (n, rest) → maxLen < n →
      executedOpsDeserialize tc maxLen maxOps l = .error .bounds) ∧
    (∀ (good : List (Slot × Finset Nat)) (n : Nat) (s : Slot) (k : Nat) (tail : List Nat),
      (∀ p ∈ good, p.1.period < 2 ^ 64 ∧ p.1.thread < tc ∧ p.2.card ≤ maxOps ∧
        ∀ id ∈ p.2, id < 256 ^ 32) →
      good.length < n → n ≤ maxLen → s.period < 2 ^ 64 → s.thread < tc → maxOps < k →
      executedOpsDeserialize tc maxLen maxOps
        (uvarintSer n ++ (good.foldr (fun p acc => entrySer p ++ acc) [] ++
          (slotSer s ++ (uvarintSer k ++ tail)))) = .error .bounds) := by
  constructor
  · intro l rest n hdec hn
    rw [executedOpsDeserialize, u64Deser, hdec]
    show (match (if n ≤ maxLen then Except.ok (n, rest)
        else (Except.error DeserErr.bounds : Except DeserErr (Nat × List Nat))) with
      | Except.error e => Except.error e
      | Except.ok (n2, l1) =>
        match deserCount (entryDeser tc maxOps) n2 l1 with
        | Except.error e => Except.error e
        | Except.ok (entries, l2) =>
          Except.ok (entries, l2)) = Except.error DeserErr.bounds
    rw [if_neg (show ¬ n ≤ maxLen by omega)]
  · intro good n s k tail hgood hlen hmax hp ht hk
    rw [executedOpsDeserialize, u64Deser_rt maxLen n _ hmax]
    show (match deserCount (entryDeser tc maxOps) n
        (good.foldr (fun p acc => entrySer p ++ acc) [] ++
          (slotSer s ++ (uvarintSer k ++ tail))) with
      | Except.error e => Except.error e
      | Except.ok (entries, l2) =>
        Except.ok (entries, l2)) = Except.error DeserErr.bounds
    rw [deserCount_error (entryDeser tc maxOps) entrySer good
      (fun p hp2 r => entry_rt tc maxOps p r (hgood p hp2).1 (hgood p hp2).2.1
        (hgood p hp2).2.2.1 (hgood p hp2).2.2.2)
      n _ DeserErr.bounds hlen
      (entryDeser_inner_bounds tc maxOps s k tail hp ht hk)]

/-- Witness for claim C8: the outer varint `[11]` decodes to 11 which
exceeds `max_executed_ops_length = 10`; and a chunk announcing one entry
whose inner length varint decodes to 11 > `max_operations_per_block = 10`
also fails with a bounds error. -/
theorem executed_ops_deser_bounds_witness :
    uvarintDeser [11] = .ok (11, []) ∧ 10 < 11 ∧
    executedOpsDeserialize 2 10 10 [11] = .error .bounds ∧
    executedOpsDeserialize 2 10 10
      (uvarintSer 1 ++ (([] : List (Slot × Finset Nat)).foldr
        (fun p acc => entrySer p ++ acc) [] ++
        (slotSer ⟨0, 0⟩ ++ (uvarintSer 11 ++ [])))) = .error .bounds := by
  refine ⟨rfl, by omega, ?_, ?_⟩
  · exact (executed_ops_deser_bounds 2 10 10).1 [11] [] 11 rfl (by omega)
  · exact (executed_ops_deser_bounds 2 10 10).2 [] 1 ⟨0, 0⟩ 11 []
      (fun p hp => absurd hp (List.not_mem_nil p)) (by decide) (by omega)
      (by decide) (by decide) (by omega)

/-- Peer connection states (`PeerState` in `peer_handler/models`). -/
inductive PeerState where
  | Trusted
  | InHandshake
  | HandshakeFailed
  | Banned
deriving DecidableEq, Repr

/-- A signed listener announcement. Only the fields the handshake's DB
updates inspect are modelled: the listeners map (as an abstract address
list) and the timestamp; hash and signature checking is abstracted into
the session's verification outcomes. -/
structure Announcement where
  listeners : List Nat
  timestamp : Nat
deriving DecidableEq, Repr

/-- `PeerInfo { last_announce, state }`. -/
structure PeerInfo where
  last_announce : Announcement
  state : PeerState
deriving DecidableEq, Repr

/-- The peer database: `peers` as an association list `PeerId → PeerInfo`
and `index_by_newest` as the set of `(timestamp, peer_id)` pairs (the
`Reverse` wrapper of the `BTreeSet` only affects iteration order, not
membership). -/
structure PeerDB where
  peers : List (Nat × PeerInfo)
  index_by_newest : Finset (Nat × Nat)
deriving DecidableEq

/-- `peers.entry(pid).and_modify(f)`: modify the entry when present, do
nothing when absent. -/
def dbModify (l : List (Nat × PeerInfo)) (pid : Nat) (f : PeerInfo → PeerInfo) :
    List (Nat × PeerInfo) :=
  l.map (fun q => if q.1 = pid then (q.1, f q.2) else q)

/-- `peers.entry(pid).and_modify(f).or_insert(d)`. -/
def dbModifyOrInsert (l : List (Nat × PeerInfo)) (pid : Nat) (f : PeerInfo → PeerInfo)
    (d : PeerInfo) : List (Nat × PeerInfo) :=
  if l.any (fun q => decide (q.1 = pid)) then dbModify l pid f else l ++ [(pid, d)]

/-- `peers.get(pid)`. -/
def dbGet : List (Nat × PeerInfo) → Nat → Option PeerInfo
  | [], _ => none
  | q :: rest, pid => if q.1 = pid then some q.2 else dbGet rest pid

/-- The failure points of `perform_handshake`; every one of them is
reported as a `PeerNetError::HandshakeError` in the source. -/
inductive HsError where
  | shortFrame
  | peerIdParse
  | versionDeser
  | versionIncompatible
  | missingTag
  | annDeser
  | invalidSignature
  | handleFail
  | randomBytes
  | signFail
  | sigBytes
  | challengeSig
  | tag1Fail
  | invalidTag
  | noSlot
deriving DecidableEq, Repr

/-- Result of `perform_handshake`: the remote peer id or a handshake
error. -/
inductive HsResult where
  | ok (pid : Nat)
  | err (e : HsError)
deriving DecidableEq, Repr

/-- The environment of one `perform_handshake` run: the remote's first
frame (its length and the parsed peer id), the received announcement, and
the outcome of every deserialization, signature and transport step (crypto
and byte-level IO are abstracted into these outcomes). -/
structure HsSession where
  frame1Len : Nat
  peerIdParseOk : Bool
  remotePeerId : Nat
  versionDeserOk : Bool
  versionCompatible : Bool
  tag : Option Nat
  annDeserOk : Bool
  announcement : Announcement
  annSigOk : Bool
  handleOk : Bool
  randomBytesOk : Bool
  signOk : Bool
  sigBytesOk : Bool
  challengeSigOk : Bool
  tag1Ok : Bool
deriving DecidableEq, Repr

/-- `MassaHandshake::perform_handshake`, translated control-flow-faithfully
from `peer_handler/mod.rs`: the banned-peer check only logs; the peer is
marked `InHandshake` by `and_modify` (no insertion); every early
`return Err(...)` and `?` propagation exits BEFORE the final peer-DB update
block (source lines 463-507), so only the unknown-tag arm produces a
`res = Err(..)` that reaches the `state = HandshakeFailed` write; the
`index_by_newest` refresh is guarded by `!announcement.listeners.is_empty()`. -/
def perform_handshake (db : PeerDB) (s : HsSession) : PeerDB × HsResult :=
  if s.frame1Len < 32 then (db, .err .shortFrame)
  else if ! s.peerIdParseOk then (db, .err .peerIdParse)
  else
    let pid := s.remotePeerId
    let db1 : PeerDB :=
      { db with peers := dbModify db.peers pid (fun i => { i with state := PeerState.InHandshake }) }
    if ! s.versionDeserOk then (db1, .err .versionDeser)
    else if ! s.versionCompatible then (db1, .err .versionIncompatible)
    else
      match s.tag with
      | none => (db1, .err .missingTag)
      | some 0 =>
        if ! s.annDeserOk then (db1, .err .annDeser)
        else if ! s.annSigOk then (db1, .err .invalidSignature)
        else if ! s.handleOk then (db1, .err .handleFail)
        else if ! s.randomBytesOk then (db1, .err .randomBytes)
        else if ! s.signOk then (db1, .err .signFail)
        else if ! s.sigBytesOk then (db1, .err .sigBytes)
        else if ! s.challengeSigOk then (db1, .err .challengeSig)
        else
          let ann := s.announcement
          let db2 : PeerDB :=
            if ann.listeners = [] then db1
            else
              { db1 with index_by_newest :=
                  (insert (ann.timestamp, pid) (db1.index_by_newest.filter (fun q => q.2 ≠ pid))) }
          let db3 : PeerDB :=
            { db2 with peers :=
                (dbModifyOrInsert db2.peers pid
                  (fun _ => { last_announce := ann, state := PeerState.Trusted })
                  { last_announce := ann, state := PeerState.Trusted }) }
          (db3, .ok pid)
      | some 1 =>
        if ! s.tag1Ok then (db1, .err .tag1Fail)
        else
          let db2 : PeerDB :=
            { db1 with peers := dbModify db1.peers pid (fun i => { i with state := PeerState.HandshakeFailed }) }
          (db2, .err .noSlot)
      | some _ =>
        let db2 : PeerDB :=
          { db1 with peers := dbModify db1.peers pid (fun i => { i with state := PeerState.HandshakeFailed }) }
        (db2, .err .invalidTag)

theorem dbGet_dbModify (pid : Nat) (f : PeerInfo → PeerInfo) :
    ∀ l : List (Nat × PeerInfo), dbGet (dbModify l pid f) pid = (dbGet l pid).map f := by
  intro l
  induction l with
  | nil => rfl
  | cons q rest ih =>
    rw [show dbModify (q :: rest) pid f =
      (if q.1 = pid then (q.1, f q.2) else q) :: dbModify rest pid f from rfl]
    by_cases h : q.1 = pid
    · simp [dbGet, h]
    · rw [if_neg h,
        show dbGet (q :: dbModify rest pid f) pid =
          (if q.1 = pid then some q.2 else dbGet (dbModify rest pid f) pid) from rfl,
        if_neg h, ih,
        show dbGet (q :: rest) pid = (if q.1 = pid then some q.2 else dbGet rest pid) from rfl,
        if_neg h]

theorem dbGet_append_self (pid : Nat) (d : PeerInfo) :
    ∀ l : List (Nat × PeerInfo), (∀ q ∈ l, q.1 ≠ pid) →
      dbGet (l ++ [(pid, d)]) pid = some d := by
  intro l
  induction l with
  | nil => intro _; simp [dbGet]
  | cons q rest ih =>
    intro h
    rw [List.cons_append,
      show dbGet (q :: (rest ++ [(pid, d)])) pid =
        (if q.1 = pid then some q.2 else dbGet (rest ++ [(pid, d)]) pid) from rfl,
      if_neg (h q (List.mem_cons_self _ _)), ih (fun r hr => h r (List.mem_cons_of_mem _ hr))]

theorem dbGet_isSome_of_any (pid : Nat) :
    ∀ l : List (Nat × PeerInfo), l.any (fun q => decide (q.1 = pid)) = true →
      ∃ i, dbGet l pid = some i := by
  intro l
  induction l with
  | nil => intro h; cases h
  | cons q rest ih =>
    intro h
    by_cases hq : q.1 = pid
    · exact ⟨q.2, by simp [dbGet, hq]⟩
    · have h2 : rest.any (fun q => decide (q.1 = pid)) = true := by
        rw [List.any_cons] at h
        simpa [hq] using h
      obtain ⟨i, hi⟩ := ih h2
      exact ⟨i, by simp [dbGet, hq, hi]⟩

theorem dbGet_dbModifyOrInsert_const (l : List (Nat × PeerInfo)) (pid : Nat) (d : PeerInfo) :
    dbGet (dbModifyOrInsert l pid (fun _ => d) d) pid = some d := by
  rw [dbModifyOrInsert]
  by_cases h : l.any (fun q => decide (q.1 = pid)) = true
  · rw [if_pos h, dbGet_dbModify]
    obtain ⟨i, hi⟩ := dbGet_isSome_of_any pid l h
    rw [hi]
    rfl
  · rw [if_neg h]
    refine dbGet_append_self pid d l ?_
    intro q hq hc
    exact h (List.any_eq_true.mpr ⟨q, hq, by simp [hc]⟩)

/-- Claim C4, evaluated at the failing inputs (code bug): with the remote
peer 7 present as `Trusted` and everything valid except a signature, a
failed announcement-signature verification (left conjunct) or a failed
challenge-response verification (right conjunct) makes `perform_handshake`
return a handshake error, but the peer's DB state is left `InHandshake`:
the early `return`/`?` skips the update block whose own comment says "if
handshake failed, we set the peer state to HandshakeFailed". -/
theorem handshake_sig_failure_keeps_in_handshake :
    ((perform_handshake ⟨[(7, ⟨⟨[5], 3⟩, PeerState.Trusted⟩)], ∅⟩
        ⟨64, true, 7, true, true, some 0, true, ⟨[4], 9⟩, false, true, true, true, true, true,
          true⟩).2 = HsResult.err HsError.invalidSignature ∧
      (dbGet (perform_handshake ⟨[(7, ⟨⟨[5], 3⟩, PeerState.Trusted⟩)], ∅⟩
        ⟨64, true, 7, true, true, some 0, true, ⟨[4], 9⟩, false, true, true, true, true, true,
          true⟩).1.peers 7).map PeerInfo.state = some PeerState.InHandshake) ∧
    ((perform_handshake ⟨[(7, ⟨⟨[5], 3⟩, PeerState.Trusted⟩)], ∅⟩
        ⟨64, true, 7, true, true, some 0, true, ⟨[4], 9⟩, true, true, true, true, true, false,
          true⟩).2 = HsResult.err HsError.challengeSig ∧
      (dbGet (perform_handshake ⟨[(7, ⟨⟨[5], 3⟩, PeerState.Trusted⟩)], ∅⟩
        ⟨64, true, 7, true, true, some 0, true, ⟨[4], 9⟩, true, true, true, true, true, false,
          true⟩).1.peers 7).map PeerInfo.state = some PeerState.InHandshake) := by
  decide

/-- Claim C9 counterexample: peer 7 is known with a stale index entry
(5, 7); a successful tag-0 handshake whose announcement has an EMPTY
listeners map completes with `ok`, yet `index_by_newest` keeps the stale
entry and does not receive `(timestamp, peer_id) = (9, 7)`: the refresh
is guarded by `!listeners.is_empty()`. -/
theorem handshake_index_refresh_cex :
    (perform_handshake ⟨[(7, ⟨⟨[4], 5⟩, PeerState.Trusted⟩)], {(5, 7)}⟩
        ⟨64, true, 7, true, true, some 0, true, ⟨[], 9⟩, true, true, true, true, true, true,
          true⟩).2 = HsResult.ok 7 ∧
    (5, 7) ∈ (perform_handshake ⟨[(7, ⟨⟨[4], 5⟩, PeerState.Trusted⟩)], {(5, 7)}⟩
        ⟨64, true, 7, true, true, some 0, true, ⟨[], 9⟩, true, true, true, true, true, true,
          true⟩).1.index_by_newest ∧
    (9, 7) ∉ (perform_handshake ⟨[(7, ⟨⟨[4], 5⟩, PeerState.Trusted⟩)], {(5, 7)}⟩
        ⟨64, true, 7, true, true, some 0, true, ⟨[], 9⟩, true, true, true, true, true, true,
          true⟩).1.index_by_newest := by
  decide

/-- Claim C9 (amended): for every run of `perform_handshake` that completes
the tag-0 path successfully, the function returns the remote peer id and the
peer DB entry for the remote ends with state `Trusted` and `last_announce`
equal to the received announcement (inserted if the peer was unknown); and
— when the announcement's listeners map is non-empty — `index_by_newest`
is refreshed: every prior entry for that peer id is removed and
`(timestamp, peer_id)` is inserted, leaving at most one index entry for
that peer. When the listeners map is empty the index is left unchanged. -/
theorem handshake_success_db_update (db : PeerDB) (s : HsSession)
    (h1 : ¬ s.frame1Len < 32) (h2 : s.peerIdParseOk = true)
    (h3 : s.versionDeserOk = true) (h4 : s.versionCompatible = true)
    (h5 : s.tag = some 0) (h6 : s.annDeserOk = true) (h7 : s.annSigOk = true)
    (h8 : s.handleOk = true) (h9 : s.randomBytesOk = true) (h10 : s.signOk = true)
    (h11 : s.sigBytesOk = true) (h12 : s.challengeSigOk = true) :
    (perform_handshake db s).2 = HsResult.ok s.remotePeerId ∧
    dbGet (perform_handshake db s).1.peers s.remotePeerId =
      some ⟨s.announcement, PeerState.Trusted⟩ ∧
    (s.announcement.listeners ≠ [] →
      (perform_handshake db s).1.index_by_newest =
        insert (s.announcement.timestamp, s.remotePeerId)
          (db.index_by_newest.filter (fun q => q.2 ≠ s.remotePeerId)) ∧
      ∀ q ∈ (perform_handshake db s).1.index_by_newest, q.2 = s.remotePeerId →
        q = (s.announcement.timestamp, s.remotePeerId)) ∧
    (s.announcement.listeners = [] →
      (perform_handshake db s).1.index_by_newest = db.index_by_newest) := by
  rcases s with ⟨len, pok, pid, vdok, vcomp, tag, adok, ann, asok, hok, rbok, sok, sbok,
    csok, t1ok⟩
  have e2 : pok = true := h2
  have e3 : vdok = true := h3
  have e4 : vcomp = true := h4
  have e5 : tag = some 0 := h5
  have e6 : adok = true := h6
  have e7 : asok = true := h7
  have e8 : hok = true := h8
  have e9 : rbok = true := h9
  have e10 : sok = true := h10
  have e11 : sbok = true := h11
  have e12 : csok = true := h12
  subst e2 e3 e4 e5 e6 e7 e8 e9 e10 e11 e12
  have h1' : ¬ len < 32 := h1
  have hred : perform_handshake db
      ⟨len, true, pid, true, true, some 0, true, ann, true, true, true, true, true, true,
        t1ok⟩ =
      ({ ((if ann.listeners = [] then
            { db with peers :=
                (dbModify db.peers pid (fun i => { i with state := PeerState.InHandshake })) }
          else
            { peers :=
                (dbModify db.peers pid (fun i => { i with state := PeerState.InHandshake })),
              index_by_newest :=
                (insert (ann.timestamp, pid)
                  (db.index_by_newest.filter (fun q => q.2 ≠ pid))) }) : PeerDB) with
          peers :=
            (dbModifyOrInsert
              ((if ann.listeners = [] then
            { db with peers :=
                (dbModify db.peers pid (fun i => { i with state := PeerState.InHandshake })) }
          else
            { peers :=
                (dbModify db.peers pid (fun i => { i with state := PeerState.InHandshake })),
              index_by_newest :=
                (insert (ann.timestamp, pid)
                  (db.index_by_newest.filter (fun q => q.2 ≠ pid))) }) : PeerDB).peers pid
              (fun _ => { last_announce := ann, state := PeerState.Trusted })
              { last_announce := ann, state := PeerState.Trusted }) },
        HsResult.ok pid) := by
    rw [perform_handshake, if_neg h1']
    rfl
  rw [hred]
  refine ⟨rfl, ?_, ?_, ?_⟩
  · exact dbGet_dbModifyOrInsert_const _ pid _
  · intro hne
    constructor
    · show ((if ann.listeners = [] then _ else _ : PeerDB)).index_by_newest = _
      rw [if_neg hne]
    · intro q hq hq2
      have hmem : q ∈ (if ann.listeners = [] then
          { db with peers :=
              (dbModify db.peers pid (fun i => { i with state := PeerState.InHandshake })) }
        else
          { peers :=
              (dbModify db.peers pid (fun i => { i with state := PeerState.InHandshake })),
            index_by_newest :=
              (insert (ann.timestamp, pid)
                (db.index_by_newest.filter (fun q => q.2 ≠ pid))) } :
          PeerDB).index_by_newest := hq
      rw [if_neg hne] at hmem
      rcases Finset.mem_insert.mp hmem with h | h
      · exact h
      · exact absurd hq2 (Finset.mem_filter.mp h).2
  · intro he
    show ((if ann.listeners = [] then _ else _ : PeerDB)).index_by_newest = _
    rw [if_pos he]

/-- Witness for the amended claim C9 at a concrete database and session
(non-empty listeners, stale index entry for the peer). -/
theorem handshake_success_db_update_witness :
    ¬ (⟨64, true, 7, true, true, some 0, true, ⟨[4], 9⟩, true, true, true, true, true, true,
        true⟩ : HsSession).frame1Len < 32 ∧
    ((perform_handshake ⟨[(7, ⟨⟨[5], 3⟩, PeerState.Trusted⟩)], {(5, 7)}⟩
        ⟨64, true, 7, true, true, some 0, true, ⟨[4], 9⟩, true, true, true, true, true, true,
          true⟩).2 = HsResult.ok 7 ∧
      dbGet (perform_handshake ⟨[(7, ⟨⟨[5], 3⟩, PeerState.Trusted⟩)], {(5, 7)}⟩
        ⟨64, true, 7, true, true, some 0, true, ⟨[4], 9⟩, true, true, true, true, true, true,
          true⟩).1.peers 7 = some ⟨⟨[4], 9⟩, PeerState.Trusted⟩ ∧
      (([4] : List Nat) ≠ [] →
        (perform_handshake ⟨[(7, ⟨⟨[5], 3⟩, PeerState.Trusted⟩)], {(5, 7)}⟩
          ⟨64, true, 7, true, true, some 0, true, ⟨[4], 9⟩, true, true, true, true, true, true,
            true⟩).1.index_by_newest =
          insert (9, 7) (({(5, 7)} : Finset (Nat × Nat)).filter (fun q => q.2 ≠ 7)) ∧
        ∀ q ∈ (perform_handshake ⟨[(7, ⟨⟨[5], 3⟩, PeerState.Trusted⟩)], {(5, 7)}⟩
          ⟨64, true, 7, true, true, some 0, true, ⟨[4], 9⟩, true, true, true, true, true, true,
            true⟩).1.index_by_newest, q.2 = 7 → q = (9, 7)) ∧
      (([4] : List Nat) = [] →
        (perform_handshake ⟨[(7, ⟨⟨[5], 3⟩, PeerState.Trusted⟩)], {(5, 7)}⟩
          ⟨64, true, 7, true, true, some 0, true, ⟨[4], 9⟩, true, true, true, true, true, true,
            true⟩).1.index_by_newest = ({(5, 7)} : Finset (Nat × Nat)))) := by
  refine ⟨by decide, ?_⟩
  exact handshake_success_db_update ⟨[(7, ⟨⟨[5], 3⟩, PeerState.Trusted⟩)], {(5, 7)}⟩
    ⟨64, true, 7, true, true, some 0, true, ⟨[4], 9⟩, true, true, true, true, true, true, true⟩
    (by decide) rfl rfl rfl rfl rfl rfl rfl rfl rfl rfl rfl
